import Mathlib

/-!
# benchmark-matrices: `src/cpp/main.cpp`

A shallow embedding of the C++ benchmark program and theorems about it.

* `Double` models the IEEE-754 binary64 values of `double`, with addition and
  multiplication rounded to nearest, ties to even, each operation on its own (no
  fused multiply-add).
* `multiply_matrices` embeds the triple loop of lines 131-148.  An element access
  outside a vector, undefined behaviour in C++, makes the embedding return `none`.
  The count `int n = matrix_a.size()` is a natural number: a matrix of `2^31` rows
  is out of reach.
* `load_matrix` embeds the scanner of lines 40-117 on the text `content` of the file,
  a list of characters, one per byte.  A `std::runtime_error`, which line 118 catches
  to print it and leave with status 1, is the result `.error`; the diagnostics
  written to `std::cerr` are not part of the result.
* `stod` models `std::stod` in the "C" locale on the strings the scanner hands to it,
  with the `ERANGE` rule of `strtod`: overflow, or an inexact conversion of a value
  that is tiny, below `2^-1022` also once rounded to 53 bits.
-/

namespace BenchmarkMatrices

/-! ## IEEE-754 binary64 -/

/-- A binary64 value.  `finite neg m e` denotes `(-1)^neg * m * 2^e`; the canonical
representatives have `m < 2^53`, `-1074 ≤ e ≤ 971` and `e = -1074` when `m < 2^52`
(subnormals and the two zeros).  All NaNs are identified. -/
inductive Double where
  | finite (neg : Bool) (m : Nat) (e : Int)
  | inf (neg : Bool)
  | nan
  deriving DecidableEq, Repr

namespace Double

/-- Smallest exponent of the significand unit: `2^-1074` is the least subnormal. -/
def emin : Int := -1074

/-- Largest exponent of the significand unit: `(2^53 - 1) * 2^971` is `DBL_MAX`. -/
def emax : Int := 971

/-- Canonical representative of a binary64 value. -/
def valid : Double → Bool
  | finite _ m e => decide (m < 2 ^ 53) && decide (emin ≤ e) && decide (e ≤ emax)
      && (decide (2 ^ 52 ≤ m) || decide (e = emin))
  | inf _ => true
  | nan => true

/-- Is the value finite (neither an infinity nor a NaN)? -/
def is_finite : Double → Bool
  | finite _ _ _ => true
  | _ => false

/-- The value `+0.0`. -/
def zero : Double := finite false 0 emin

/-- The value `-0.0`. -/
def neg_zero : Double := finite true 0 emin

/-- The value `1.0`. -/
def one : Double := finite false (2 ^ 52) (-52)

/-- Auxiliary loop of `log2`: halve `n` at most `fuel` times. -/
def log2_loop : Nat → Nat → Nat
  | 0, _ => 0
  | fuel + 1, n => if 2 ≤ n then log2_loop fuel (n / 2) + 1 else 0

/-- Position of the leading bit of `n`: `2 ^ log2 n ≤ n < 2 ^ (log2 n + 1)` for `n > 0`. -/
def log2 (n : Nat) : Nat := log2_loop n n

/-- The double of a natural number small enough to be exact (`n < 2^53`), as written
by an integer literal such as `19.0`. -/
def of_nat (n : Nat) : Double :=
  if n = 0 then zero
  else
    let s := 52 - log2 n
    finite false (n * 2 ^ s) (-(s : Int))

/-- Round the exact magnitude `m * 2^e` to binary64, round-to-nearest, ties to even,
with sign `neg`.  A magnitude beyond `DBL_MAX` rounds to an infinity. -/
def round (neg : Bool) (m : Nat) (e : Int) : Double :=
  if m = 0 then finite neg 0 emin
  else
    let e1 : Int := max (e + (log2 m : Int) - 52) emin
    if e1 ≤ e then
      if e1 > emax then inf neg else finite neg (m * 2 ^ (e - e1).toNat) e1
    else
      let sh : Nat := (e1 - e).toNat
      let q := m / 2 ^ sh
      let r := m % 2 ^ sh
      let half := 2 ^ (sh - 1)
      let q1 := if r > half ∨ (r = half ∧ q % 2 = 1) then q + 1 else q
      let m2 := if q1 = 2 ^ 53 then 2 ^ 52 else q1
      let e2 := if q1 = 2 ^ 53 then e1 + 1 else e1
      if e2 > emax then inf neg else finite neg m2 e2

/-- IEEE-754 multiplication (`a * b` on `double`). -/
def mul : Double → Double → Double
  | nan, _ => nan
  | _, nan => nan
  | inf s, inf t => inf (s != t)
  | inf s, finite t m _ => if m = 0 then nan else inf (s != t)
  | finite s m _, inf t => if m = 0 then nan else inf (s != t)
  | finite s m e, finite t k f => round (s != t) (m * k) (e + f)

/-- IEEE-754 addition (`a + b` on `double`), round-to-nearest-even: an exact zero sum
is `+0.0` unless both operands are negative zeros. -/
def add : Double → Double → Double
  | nan, _ => nan
  | _, nan => nan
  | inf s, inf t => if s = t then inf s else nan
  | inf s, finite _ _ _ => inf s
  | finite _ _ _, inf t => inf t
  | finite s m e, finite t k f =>
    let e0 : Int := min e f
    let x : Int := (if s then -1 else 1) * ((m * 2 ^ (e - e0).toNat : Nat) : Int)
    let y : Int := (if t then -1 else 1) * ((k * 2 ^ (f - e0).toNat : Nat) : Int)
    let z : Int := x + y
    if z = 0 then finite (s && t) 0 emin
    else round (decide (z < 0)) z.natAbs e0

/-- The value with the sign of a zero cleared: `-0.0` becomes `+0.0`, every other
value is unchanged. -/
def clear_zero_sign : Double → Double
  | finite s m e => if m = 0 then finite false 0 e else finite s m e
  | d => d

instance : Add Double := ⟨add⟩
instance : Mul Double := ⟨mul⟩

/-- The comparison `a == b` of C++ on `double`: NaN differs from everything, the two
zeros are equal. -/
def eq : Double → Double → Bool
  | finite s m e, finite t k f => (m == 0 && k == 0) || (s == t && m == k && e == f)
  | inf s, inf t => s == t
  | _, _ => false

end Double

/-! ## The multiplier (lines 131-148) -/

/-- The type `Matrix` of the source: `std::vector<std::vector<double>>`. -/
abbrev Matrix := List (List Double)

/-- The access `M[i][j]`; `none` stands for an access outside a vector. -/
def at2 (M : Matrix) (i j : Nat) : Option Double :=
  match M[i]? with
  | none => none
  | some row => row[j]?

/-- The assignment `C[i][j] = s`; `none` stands for an access outside a vector. -/
def set2 (C : Matrix) (i j : Nat) (s : Double) : Option Matrix :=
  match C[i]? with
  | none => none
  | some row => if j < row.length then some (C.set i (row.set j s)) else none

/-- The loop over `k` (lines 139-142): `s` accumulates `A[i][k] * B[k][j]`. -/
def dot_loop (A B : Matrix) (i j : Nat) (ks : List Nat) (s : Double) : Option Double :=
  ks.foldlM (fun s k =>
    match at2 A i k, at2 B k j with
    | some a, some b => some (s + a * b)
    | _, _ => none) s

/-- The loop over `j` (lines 138-144). -/
def row_loop (A B : Matrix) (n i : Nat) (js : List Nat) (C : Matrix) : Option Matrix :=
  js.foldlM (fun C j =>
    match dot_loop A B i j (List.range n) Double.zero with
    | some s => set2 C i j s
    | none => none) C

/-- The function `multiply_matrices` (lines 131-148): `n` is the number of rows of
the first operand, the result starts as the `n × n` zero matrix and every entry is
assigned in the order `i`, `j`, with `k` innermost. -/
def multiply_matrices (matrix_a matrix_b : Matrix) : Option Matrix :=
  let n := matrix_a.length
  let C : Matrix := List.replicate n (List.replicate n Double.zero)
  (List.range n).foldlM (fun C i => row_loop matrix_a matrix_b n i (List.range n) C) C

/-- A matrix with `n` rows of `n` entries each. -/
def is_square (n : Nat) (M : Matrix) : Prop :=
  M.length = n ∧ ∀ row ∈ M, row.length = n

instance (n : Nat) (M : Matrix) : Decidable (is_square n M) := by
  unfold is_square
  infer_instance

/-- Every entry is a canonical binary64 value and is finite. -/
def all_finite (M : Matrix) : Prop :=
  ∀ row ∈ M, ∀ a ∈ row, a.valid = true ∧ a.is_finite = true

instance (M : Matrix) : Decidable (all_finite M) := by
  unfold all_finite
  infer_instance

/-- The sum `Σ_k A[i][k] * B[k][j]` accumulated from `+0.0` in increasing `k`; an
index outside the matrix reads as `+0.0`. -/
def dot (A B : Matrix) (n i j : Nat) : Double :=
  (List.range n).foldl
    (fun s k => s + ((A.getD i []).getD k Double.zero) * ((B.getD k []).getD j Double.zero))
    Double.zero

/-- The top-left `n × n` block of a matrix: the first `n` entries of each of its first
`n` rows. -/
def top_left (n : Nat) (M : Matrix) : Matrix :=
  (M.take n).map (List.take n)

/-- The first operand of the example of section 8: `[[1,2],[3,4]]`. -/
def example_a : Matrix :=
  [[Double.of_nat 1, Double.of_nat 2], [Double.of_nat 3, Double.of_nat 4]]

/-- The second operand of the example of section 8: `[[5,6],[7,8]]`. -/
def example_b : Matrix :=
  [[Double.of_nat 5, Double.of_nat 6], [Double.of_nat 7, Double.of_nat 8]]

/-- The product of the example of section 8: `[[19,22],[43,50]]`. -/
def example_c : Matrix :=
  [[Double.of_nat 19, Double.of_nat 22], [Double.of_nat 43, Double.of_nat 50]]

/-- The `n × n` identity matrix. -/
def identity (n : Nat) : Matrix :=
  (List.range n).map fun i => (List.range n).map fun j =>
    if i = j then Double.one else Double.zero

/-! ## `std::stod` on candidate tokens (line 86) -/

/-- The exceptions of `std::stod`. -/
inductive StodError where
  | invalid_argument
  | out_of_range
  deriving DecidableEq, Repr

/-- Value of a run of decimal digits. -/
def digits_value (ds : List Char) : Nat :=
  ds.foldl (fun n c => 10 * n + (c.toNat - 48)) 0

/-- Round the exact magnitude `p / q` (`q > 0`) to binary64, round-to-nearest, ties
to even, with sign `neg`; the flag tells whether the result is exact. -/
def round_ratio (neg : Bool) (p q : Nat) : Double × Bool :=
  if p = 0 then (Double.finite neg 0 Double.emin, true)
  else
    let d : Int := (Double.log2 p : Int) - (Double.log2 q : Int)
    let ge : Bool := if 0 ≤ d then decide (q * 2 ^ d.toNat ≤ p) else decide (q ≤ p * 2 ^ (-d).toNat)
    let fl : Int := if ge then d else d - 1
    let e1 : Int := max (fl - 52) Double.emin
    let num := if 0 ≤ e1 then p else p * 2 ^ (-e1).toNat
    let den := if 0 ≤ e1 then q * 2 ^ e1.toNat else q
    let qt := num / den
    let r := num % den
    let q1 := if 2 * r > den ∨ (2 * r = den ∧ qt % 2 = 1) then qt + 1 else qt
    let m2 := if q1 = 2 ^ 53 then 2 ^ 52 else q1
    let e2 := if q1 = 2 ^ 53 then e1 + 1 else e1
    if e2 > Double.emax then (Double.inf neg, false) else (Double.finite neg m2 e2, decide (r = 0))

/-- IEEE-754 division (`a / b` on `double`), round-to-nearest-even: a finite nonzero
value over zero is an infinity, `0.0 / 0.0` is a NaN. -/
def Double.div : Double → Double → Double
  | .nan, _ => .nan
  | _, .nan => .nan
  | .inf _, .inf _ => .nan
  | .inf s, .finite t _ _ => .inf (s != t)
  | .finite s _ _, .inf t => .finite (s != t) 0 Double.emin
  | .finite s m e, .finite t k f =>
    if k = 0 then (if m = 0 then .nan else .inf (s != t))
    else if f ≤ e then (round_ratio (s != t) (m * 2 ^ (e - f).toNat) k).1
    else (round_ratio (s != t) m (k * 2 ^ (f - e).toNat)).1

instance : Div Double := ⟨Double.div⟩

/-- The conversion of an integer to `double`, rounded to nearest, ties to even. -/
def Double.of_int (z : Int) : Double :=
  Double.round (decide (z < 0)) z.natAbs 0

/-- The tininess test of `strtod` (glibc, x86-64) on the exact magnitude `p / q`: the
value is below `DBL_MIN = 2^-1022` and its rounding to 53 bits with an unbounded
exponent stays below `DBL_MIN`, that is `p / q < 2^-1022 - 2^-1076`. -/
def is_tiny (p q : Nat) : Bool :=
  decide (p * 2 ^ 1076 < q * (2 ^ 54 - 1))

/-- The function `std::stod(str, &end_pos)` on a string of characters of the numeric
class (digits, `.`, `-`, `+`, `e`, `E`), the only strings the scanner passes to it.
It converts the longest prefix of the form
`[+-] (digits [. digits*] | . digits) [(e|E) [+-] digits]` with correct rounding and
returns the value with the number of characters converted.  It throws
`invalid_argument` when no prefix has that form and `out_of_range` when `strtod`
reports `ERANGE`: the value overflows, or it is tiny and its conversion is inexact. -/
def stod (str : List Char) : Except StodError (Double × Nat) :=
  let neg := str.head? == some '-'
  let n0 := if str.head? == some '-' || str.head? == some '+' then 1 else 0
  let ip := (str.drop n0).takeWhile Char.isDigit
  let s2 := str.drop (n0 + ip.length)
  let has_dot := s2.head? == some '.'
  let fp := if has_dot then (s2.drop 1).takeWhile Char.isDigit else []
  if ip.isEmpty && fp.isEmpty then .error .invalid_argument
  else
    let n1 := n0 + ip.length + (if has_dot then 1 + fp.length else 0)
    let s3 := str.drop n1
    let has_e := s3.head? == some 'e' || s3.head? == some 'E'
    let s4 := s3.drop 1
    let eneg := s4.head? == some '-'
    let k := if s4.head? == some '-' || s4.head? == some '+' then 1 else 0
    let ed := (s4.drop k).takeWhile Char.isDigit
    let has_exp := has_e && !ed.isEmpty
    let end_pos := if has_exp then n1 + 1 + k + ed.length else n1
    let ex : Int := if has_exp then (if eneg then -(digits_value ed : Int) else digits_value ed) else 0
    let x : Int := ex - fp.length
    let mant := digits_value (ip ++ fp)
    let p := if 0 ≤ x then mant * 10 ^ x.toNat else mant
    let q := if 0 ≤ x then 1 else 10 ^ (-x).toNat
    let res := round_ratio neg p q
    let tiny := is_tiny p q
    match res with
    | (Double.finite s m e, exact) =>
      if tiny = true ∧ exact = false then .error .out_of_range
      else .ok (Double.finite s m e, end_pos)
    | _ => .error .out_of_range

/-! ## The scanner of `load_matrix` (lines 40-117) -/

/-- The failures of the scanner: each is a `std::runtime_error` caught at line 118,
which prints it and exits with status 1.  `fuel_exhausted` is the bound of the
embedding's loops and is never reached. -/
inductive ScanError where
  | no_opening_bracket
  | conversion
  | unterminated_row
  | fuel_exhausted
  deriving DecidableEq, Repr

deriving instance DecidableEq for Except

/-- Search of `std::string::find` in the text that remains at `pos`. -/
def find_loop (c : Char) : List Char → Nat → Option Nat
  | [], _ => none
  | d :: rest, pos => if d = c then some pos else find_loop c rest (pos + 1)

/-- The call `content.find(c, pos)`: the first index at or after `pos` that holds `c`;
`none` stands for `npos`. -/
def find (content : List Char) (c : Char) (pos : Nat) : Option Nat :=
  find_loop c (content.drop pos) pos

/-- The characters skipped at line 61. -/
def is_separator (c : Char) : Bool :=
  c == ' ' || c == ',' || c == '\n' || c == '\r' || c == '\t'

/-- The characters collected into `numStr` at lines 72-74. -/
def is_numeric_char (c : Char) : Bool :=
  c.isDigit || c == '.' || c == '-' || c == '+' || c == 'e' || c == 'E'

/-- The loop of lines 61-63 on the text that remains at `pos`. -/
def skip_separators : List Char → Nat → Nat
  | [], pos => pos
  | c :: rest, pos => if is_separator c then skip_separators rest (pos + 1) else pos

/-- Outcome of one pass of the value loop. -/
inductive ValuePass where
  | next (pos : Nat) (row : List Double)
  | stop (pos : Nat) (row : List Double)
  | fail (e : ScanError)
  deriving DecidableEq, Repr

/-- The rest of a pass of the value loop once the separators are skipped (lines
65-103), at position `pos1`.  `content[pos1]` at `pos1 = size()` is the terminating
`'\0'`, which is neither `']'` nor in the numeric class. -/
def token_pass (content : List Char) (pos1 : Nat) (row : List Double) : ValuePass :=
  if content[pos1]? = some ']' then .stop pos1 row
  else
    let numStr := (content.drop pos1).takeWhile is_numeric_char
    if numStr.isEmpty then .next (pos1 + 1) row
    else
      match stod numStr with
      | .error _ => .fail .conversion
      | .ok (value, end_pos) =>
        if end_pos = 0 then .fail .conversion
        else .next (pos1 + end_pos) (row ++ [value])

/-- One pass of the value loop (lines 60-103). -/
def value_pass (content : List Char) (pos : Nat) (row : List Double) : ValuePass :=
  token_pass content (skip_separators (content.drop pos) pos) row

/-- The value loop (lines 59-104), at most `fuel` passes: it returns the position
where it stopped and the row. -/
def scan_row (content : List Char) : Nat → Nat → List Double → Except ScanError (Nat × List Double)
  | 0, pos, row =>
    if pos < content.length ∧ content[pos]? ≠ some ']' then .error .fuel_exhausted
    else .ok (pos, row)
  | fuel + 1, pos, row =>
    if pos < content.length ∧ content[pos]? ≠ some ']' then
      match value_pass content pos row with
      | .next pos1 row1 => scan_row content fuel pos1 row1
      | .stop pos1 row1 => .ok (pos1, row1)
      | .fail e => .error e
    else .ok (pos, row)

/-- Outcome of one pass of the row loop. -/
inductive RowPass where
  | next (pos : Nat) (matrix : Matrix)
  | stop (matrix : Matrix)
  | fail (e : ScanError)
  deriving DecidableEq, Repr

/-- One pass of the row loop (lines 51-114). -/
def row_pass (content : List Char) (pos : Nat) (matrix : Matrix) : RowPass :=
  match find content '[' pos with
  | none => .stop matrix
  | some p =>
    match scan_row content content.length (p + 1) [] with
    | .error e => .fail e
    | .ok (pos1, row) =>
      let matrix1 := if row.length > 0 then matrix ++ [row] else matrix
      match find content ']' pos1 with
      | none => .fail .unterminated_row
      | some end_bracket => .next (end_bracket + 1) matrix1

/-- The row loop (lines 50-115), at most `fuel` passes. -/
def scan_rows (content : List Char) : Nat → Nat → Matrix → Except ScanError Matrix
  | 0, pos, matrix =>
    if pos < content.length then .error .fuel_exhausted else .ok matrix
  | fuel + 1, pos, matrix =>
    if pos < content.length then
      match row_pass content pos matrix with
      | .next pos1 matrix1 => scan_rows content fuel pos1 matrix1
      | .stop matrix1 => .ok matrix1
      | .fail e => .error e
    else .ok matrix

/-- The scanner of `load_matrix` (lines 40-117) on the text `content` of the file.
Every pass of a loop moves the position forward, so `content.length` passes are
enough for each loop. -/
def load_matrix (content : List Char) : Except ScanError Matrix :=
  match find content '[' 0 with
  | none => .error .no_opening_bracket
  | some pos => scan_rows content content.length (pos + 1) []

/-! ### The scanner seen from the text that remains -/

/-- The value loop started at `pos` with the values `row` already read, followed by
the search of the closing bracket (lines 59-114): the text after that bracket and
the row. -/
def row_close_from (content : List Char) (pos : Nat) (row : List Double) :
    Except ScanError (List Char × List Double) :=
  match scan_row content content.length pos row with
  | .error e => .error e
  | .ok (pos1, row1) =>
    match find content ']' pos1 with
    | none => .error .unterminated_row
    | some end_bracket => .ok (content.drop (end_bracket + 1), row1)

/-- The rest of a row, from the head of `text`. -/
def row_close (text : List Char) (row : List Double) : Except ScanError (List Char × List Double) :=
  row_close_from text 0 row

/-- The row loop started at the head of `text` with the rows `matrix` already read. -/
def rows_from (text : List Char) (matrix : Matrix) : Except ScanError Matrix :=
  scan_rows text text.length 0 matrix

/-! ## The trial harness (lines 158-179) -/

/-- The duration `end_time - start_time` as a `std::chrono::duration<double>`, in
seconds: the clock counts nanoseconds in a 64-bit integer, and the conversion divides
the count, converted to `double`, by `1e9`. -/
def elapsed_seconds (ticks : Int) : Double :=
  Double.of_int ticks / Double.of_int 1000000000

/-- The loop of lines 165-173 with `left` passes to go.  `clock t` is the reading of
the `t`-th call of `high_resolution_clock::now()` of the run, in nanoseconds, and `t`
counts the calls made so far.  The product is dropped; a call of `multiply_matrices`
that leaves a vector makes the run undefined (`none`). -/
def measure_loop (matrix_a matrix_b : Matrix) (clock : Nat → Int) :
    Nat → Nat → List Double → Option (List Double × Nat)
  | 0, t, times => some (times, t)
  | left + 1, t, times =>
    let start_time := clock t
    match multiply_matrices matrix_a matrix_b with
    | none => none
    | some _ =>
      let end_time := clock (t + 1)
      measure_loop matrix_a matrix_b clock left (t + 2)
        (times ++ [elapsed_seconds (end_time - start_time)])

/-- The call `std::accumulate(times.begin(), times.end(), 0.0)`. -/
def accumulate (times : List Double) : Double :=
  times.foldl (fun s x => s + x) Double.zero

/-- The function `measure_multiplication` (lines 158-179), started when `t` readings
of the clock have been made: the pair of the average and the durations.  The loop
`for (int i = 0; i < iterations; i++)` makes no pass for `iterations ≤ 0`. -/
def measure_multiplication (matrix_a matrix_b : Matrix) (iterations : Int) (clock : Nat → Int)
    (t : Nat) : Option (Double × List Double) :=
  match measure_loop matrix_a matrix_b clock iterations.toNat t [] with
  | none => none
  | some (times, _) =>
    let average_time := accumulate times / Double.of_int times.length
    some (average_time, times)

/-- Readings of the clock, in nanoseconds, around three calls that last 1000000,
1000000 and 1000001 nanoseconds. -/
def example_clock (t : Nat) : Int :=
  [0, 1000000, 1000000, 2000000, 2000000, 3000001].getD t 0

/-! ## The results logger (lines 218-265) -/

/-- The decimal digit `d`. -/
def digit_char (d : Nat) : Char := Char.ofNat (48 + d)

/-- Auxiliary loop of `nat_digits`. -/
def nat_digits_loop : Nat → Nat → List Char → List Char
  | 0, _, acc => acc
  | fuel + 1, n, acc =>
    if n < 10 then digit_char n :: acc
    else nat_digits_loop fuel (n / 10) (digit_char (n % 10) :: acc)

/-- The decimal digits of a natural number. -/
def nat_digits (n : Nat) : List Char := nat_digits_loop (n + 1) n []

/-- The output of `csvfile << i` for an `int`. -/
def format_int (z : Int) : List Char :=
  if z < 0 then '-' :: nat_digits z.natAbs else nat_digits z.natAbs

/-- The six digits of `n < 10^6`, leading zeros included. -/
def six_digits (n : Nat) : List Char :=
  [digit_char (n / 100000 % 10), digit_char (n / 10000 % 10), digit_char (n / 1000 % 10),
    digit_char (n / 100 % 10), digit_char (n / 10 % 10), digit_char (n % 10)]

/-- The magnitude `m * 2^e` in millionths, rounded to nearest, ties to even. -/
def round_millionths (m : Nat) (e : Int) : Nat :=
  if 0 ≤ e then m * 2 ^ e.toNat * 1000000
  else
    let p := m * 1000000
    let q := 2 ^ (-e).toNat
    let n := p / q
    let r := p % q
    if 2 * r > q ∨ (2 * r = q ∧ n % 2 = 1) then n + 1 else n

/-- The output of `csvfile << std::fixed << std::setprecision(6) << x` for a `double`:
the value rounded to six decimals, as `printf("%.6f")` writes it.  The sign that some
platforms write before `nan` is not modelled. -/
def format_fixed : Double → List Char
  | .finite neg m e =>
    let n := round_millionths m e
    (if neg then ['-'] else []) ++ nat_digits (n / 1000000) ++ '.' :: six_digits (n % 1000000)
  | .inf neg => if neg then ['-', 'i', 'n', 'f'] else ['i', 'n', 'f']
  | .nan => ['n', 'a', 'n']

/-- The header written at line 248, with its `std::endl`. -/
def header_line : List Char :=
  "language,matrix_size,iterations,individual_times,average_time\n".toList

/-- The loop of lines 255-260 with `left` passes to go, at index `i`: the duration
`times[i]`, then a space unless it is the last one. -/
def write_times_loop (times : List Double) : Nat → Nat → List Char → List Char
  | 0, _, out => out
  | left + 1, i, out =>
    write_times_loop times left (i + 1)
      (out ++ format_fixed (times.getD i Double.zero)
        ++ (if i < times.length - 1 then [' '] else []))

/-- The durations as lines 255-260 write them. -/
def write_times (times : List Double) : List Char :=
  write_times_loop times times.length 0 []

/-- A character that ends no field, no list item and no line: not `','`, not a space,
not a line feed. -/
def is_field_char (c : Char) : Bool :=
  c != ',' && c != ' ' && c != '\n'

/-- The data line written at lines 252-262, with its `std::endl`. -/
def data_line (matrix_size iterations : Int) (times : List Double) (average_time : Double) :
    List Char :=
  "C++,".toList ++ format_int matrix_size ++ [','] ++ format_int iterations ++ [',']
    ++ write_times times ++ [','] ++ format_fixed average_time ++ ['\n']

/-- The function `registrar_resultados` (lines 218-265) on the state of the results
file: `none` when the file does not exist, `some text` when it holds `text`.  The
outcomes of its three calls to the environment are inputs: `dir_created` is the result
of `create_directory` (line 228), `file_exists_flag` the result of `file_exists`
(line 236), which is `std::ifstream(path).good()` (lines 205-208), that is whether the
file could be opened for reading, and `opened` whether the file could be opened in
append mode (lines 239-241).  The result is the state of the file after the call. -/
def registrar_resultados (dir_created file_exists_flag opened : Bool)
    (file : Option (List Char)) (matrix_size iterations : Int) (times : List Double)
    (average_time : Double) : Option (List Char) :=
  if !dir_created then file
  else if !opened then file
  else
    let header := if !file_exists_flag then header_line else []
    some (file.getD [] ++ header ++ data_line matrix_size iterations times average_time)

/-! ### Notions used to state the properties of the scanner -/

/-- Where the scanner stands in the text: before the first `'['` (line 43), between
rows, where it searches the next `'['` (line 52), or inside a row, which runs from
its `'['` to the next `']'` (lines 59-114). -/
inductive ScanState where
  | before
  | between
  | in_row
  deriving DecidableEq, Repr

/-- The place of the scanner after one more character. -/
def scan_step : ScanState → Char → ScanState
  | .before, c => if c = '[' then .between else .before
  | .between, c => if c = '[' then .in_row else .between
  | .in_row, c => if c = ']' then .between else .in_row

/-- The place of the scanner after the characters `text`, starting from `st`. -/
def state_after (st : ScanState) (text : List Char) : ScanState :=
  text.foldl scan_step st

/-- The place of the scanner at the end of the prefix `pre` of a text: the character
that follows `pre` is inside a row when this is `in_row`. -/
def scan_state (pre : List Char) : ScanState :=
  state_after .before pre

/-- The rows read from `text`, a text between rows, empty rows included, in input
order: each `'['` opens a row, read by `row_close` up to its closing bracket.
`fuel` bounds the number of characters passed. -/
def scanned_rows : Nat → List Char → Except ScanError (List (List Double))
  | _, [] => .ok []
  | 0, _ :: _ => .error .fuel_exhausted
  | fuel + 1, c :: rest =>
    if c = '[' then
      match row_close rest [] with
      | .error e => .error e
      | .ok (rest1, row) =>
        match scanned_rows fuel rest1 with
        | .error e => .error e
        | .ok rows => .ok (row :: rows)
    else scanned_rows fuel rest

/-- All the rows scanned in `content`, empty rows included, in input order. -/
def all_rows (content : List Char) : Except ScanError (List (List Double)) :=
  match content.dropWhile (fun c => c != '[') with
  | [] => .error .no_opening_bracket
  | _ :: rest => scanned_rows rest.length rest

/-- A numeric literal `lit` of value `v`: a string of characters of the numeric class
that `std::stod` converts whole, to `v`. -/
def is_literal (lit : List Char) (v : Double) : Prop :=
  lit.all is_numeric_char = true ∧ stod lit = .ok (v, lit.length)

instance (lit : List Char) (v : Double) : Decidable (is_literal lit v) := by
  unfold is_literal
  infer_instance

/-- The pieces `parts` written one after the other with `sep` between two of them. -/
def join_with (sep : List Char) : List (List Char) → List Char
  | [] => []
  | [part] => part
  | part :: rest => part ++ sep ++ join_with sep rest

/-- Modelled from the spec: the writer of the input files is not part of the source.
A row in the bracket format of section 6: `'['`, the literals with `csep` between
them, `']'`. -/
def write_row (csep : List Char) (lits : List (List Char)) : List Char :=
  '[' :: join_with csep lits ++ [']']

/-- Modelled from the spec: the writer of the input files is not part of the source.
A matrix in the bracket format of section 6, e.g. `[[1.0, 2, -3.5e2], [4, 5, 6]]`:
`'['`, the rows with `rsep` between them, `']'`. -/
def write_matrix (csep rsep : List Char) (rows : List (List (List Char))) : List Char :=
  '[' :: join_with rsep (rows.map (write_row csep)) ++ [']']

/-- A separator of literals in the bracket format: a non-empty run of `','` and white
space. -/
def is_separator_run (sep : List Char) : Prop :=
  sep ≠ [] ∧ sep.all is_separator = true

instance (sep : List Char) : Decidable (is_separator_run sep) := by
  unfold is_separator_run
  infer_instance

/-- Every cell pairs a literal with its value. -/
def all_literals (cells : List (List (List Char × Double))) : Prop :=
  ∀ row ∈ cells, ∀ cell ∈ row, is_literal cell.1 cell.2

instance (cells : List (List (List Char × Double))) : Decidable (all_literals cells) := by
  unfold all_literals
  infer_instance

/-- All the rows have the same length. -/
def is_rectangular {α : Type} (rows : List (List α)) : Prop :=
  ∀ r1 ∈ rows, ∀ r2 ∈ rows, r1.length = r2.length

instance {α : Type} (rows : List (List α)) : Decidable (is_rectangular rows) := by
  unfold is_rectangular
  infer_instance

/-- The value loop started at `pos` with the row `row` stands, at the head of a pass,
at `q` with the row `s`. -/
inductive value_loop_reaches (content : List Char) :
    Nat → List Double → Nat → List Double → Prop where
  | start (pos : Nat) (row : List Double) : value_loop_reaches content pos row pos row
  | pass (pos p q : Nat) (row r s : List Double) :
    (pos < content.length ∧ content[pos]? ≠ some ']') →
    value_pass content pos row = .next p r →
    value_loop_reaches content p r q s →
    value_loop_reaches content pos row q s

/-- The row loop started at `pos` with the rows `m` stands, at the head of a pass, at
`q` with the rows `m1`. -/
inductive row_loop_reaches (content : List Char) : Nat → Matrix → Nat → Matrix → Prop where
  | start (pos : Nat) (m : Matrix) : row_loop_reaches content pos m pos m
  | pass (pos p q : Nat) (m m1 m2 : Matrix) :
    pos < content.length →
    row_pass content pos m = .next p m1 →
    row_loop_reaches content p m1 q m2 →
    row_loop_reaches content pos m q m2

/-- The scan of `content` stands inside a row at `pos`, at the head of a pass of the
value loop: the row loop has reached a row and the value loop of that row has reached
`pos`, where it goes on. -/
def reaches_in_row (content : List Char) (pos : Nat) : Prop :=
  ∃ p0 p o : Nat, ∃ m : Matrix, ∃ row : List Double,
    find content '[' 0 = some p0 ∧ row_loop_reaches content (p0 + 1) [] p m ∧
    p < content.length ∧ find content '[' p = some o ∧
    value_loop_reaches content (o + 1) [] pos row ∧
    (pos < content.length ∧ content[pos]? ≠ some ']')

/-! ## Lemmas on the multiplier -/

theorem foldl_set_getElem? {α : Type} (d : Nat → α) (js : List Nat) (l : List α) (x : Nat) :
    (js.foldl (fun r j => r.set j (d j)) l)[x]? =
      if x ∈ js ∧ x < l.length then some (d x) else l[x]? := by
  induction js generalizing l with
  | nil => simp
  | cons j js ih =>
    simp only [List.foldl_cons, ih, List.length_set, List.mem_cons]
    by_cases hx : x ∈ js ∧ x < l.length
    · simp [hx]
    · by_cases hj : x = j
      · subst hj
        by_cases hl : x < l.length
        · have : x ∉ js := fun h => hx ⟨h, hl⟩
          simp [this, hl, List.getElem?_set]
        · simp [hl, List.getElem?_set]
          omega
      · have h1 : ¬ ((x = j ∨ x ∈ js) ∧ x < l.length) := by
          rintro ⟨h | h, h2⟩
          · exact hj h
          · exact hx ⟨h, h2⟩
        rw [if_neg hx, if_neg h1, List.getElem?_set]
        simp [Ne.symm hj]

theorem foldl_set_length {α : Type} (d : Nat → α) (js : List Nat) (l : List α) :
    (js.foldl (fun r j => r.set j (d j)) l).length = l.length := by
  induction js generalizing l with
  | nil => rfl
  | cons j js ih => simp [ih]

theorem foldl_set_range {α : Type} (d : Nat → α) (n : Nat) (l : List α) (h : l.length = n) :
    (List.range n).foldl (fun r j => r.set j (d j)) l = (List.range n).map d := by
  apply List.ext_getElem?
  intro x
  rw [foldl_set_getElem?]
  by_cases hx : x < n
  · simp [hx, h]
  · have : l[x]? = none := by simp; omega
    have h2 : (List.range n)[x]? = none := by simp; omega
    simp [hx, h, this, h2]

theorem at2_eq_getD (n : Nat) (M : Matrix) (hlen : n ≤ M.length)
    (hrow : ∀ row ∈ M, n ≤ row.length) (i j : Nat) (hi : i < n)
    (hj : j < n) : at2 M i j = some ((M.getD i []).getD j Double.zero) := by
  have hi' : i < M.length := by omega
  have hr : n ≤ (M[i]).length := hrow _ (List.getElem_mem _)
  have hj' : j < (M[i]).length := by omega
  simp [at2, List.getElem?_eq_getElem hi', List.getD_eq_getElem?_getD, hj']

theorem dot_loop_eq (n : Nat) (A B : Matrix) (hA : is_square n A)
    (hB1 : n ≤ B.length) (hB2 : ∀ row ∈ B, n ≤ row.length)
    (i j : Nat) (hi : i < n) (hj : j < n) (ks : List Nat) (hks : ∀ k ∈ ks, k < n) (s : Double) :
    dot_loop A B i j ks s = some (ks.foldl
      (fun s k => s + ((A.getD i []).getD k Double.zero) * ((B.getD k []).getD j Double.zero)) s) := by
  induction ks generalizing s with
  | nil => rfl
  | cons k ks ih =>
    have hk : k < n := hks k (List.mem_cons_self _ _)
    have ih' := fun s => ih (fun k hk => hks k (List.mem_cons_of_mem _ hk)) s
    unfold dot_loop at ih' ⊢
    rw [List.foldlM_cons, at2_eq_getD n A (Nat.le_of_eq hA.1.symm) (fun r hr => Nat.le_of_eq (hA.2 r hr).symm) i k hi hk,
      at2_eq_getD n B hB1 hB2 k j hk hj]
    simpa using ih' _

theorem row_loop_eq (n : Nat) (A B : Matrix) (hA : is_square n A)
    (hB1 : n ≤ B.length) (hB2 : ∀ row ∈ B, n ≤ row.length)
    (i : Nat) (hi : i < n) (js : List Nat) (hjs : ∀ j ∈ js, j < n) (C : Matrix) (row : List Double)
    (hC : i < C.length) (hrow : C[i]? = some row) (hlen : row.length = n) :
    row_loop A B n i js C
      = some (C.set i (js.foldl (fun r j => r.set j (dot A B n i j)) row)) := by
  induction js generalizing C row with
  | nil =>
    have : C[i] = row := by
      rw [List.getElem?_eq_getElem hC] at hrow
      exact Option.some.inj hrow
    subst this
    have hset : C.set i C[i] = C := by
      apply List.ext_getElem?
      intro x
      rw [List.getElem?_set]
      by_cases hx : i = x
      · subst hx; simp [hC]
      · simp [hx]
    simp [row_loop, hset]
  | cons j js ih =>
    have hj : j < n := hjs j (List.mem_cons_self _ _)
    have hd : dot_loop A B i j (List.range n) Double.zero = some (dot A B n i j) :=
      dot_loop_eq n A B hA hB1 hB2 i j hi hj _ (fun k hk => List.mem_range.mp hk) _
    have ih' := ih (fun j hj => hjs j (List.mem_cons_of_mem _ hj)) (C.set i (row.set j (dot A B n i j)))
      (row.set j (dot A B n i j)) (by simpa using hC) (by simp [hC]) (by simpa using hlen)
    unfold row_loop at ih' ⊢
    rw [List.foldlM_cons, hd]
    simp only [set2, hrow, hlen, hj, if_true, Option.bind_eq_bind, Option.some_bind]
    erw [ih']
    simp [List.set_set]

theorem rows_loop_eq (n : Nat) (A B : Matrix) (hA : is_square n A)
    (hB1 : n ≤ B.length) (hB2 : ∀ row ∈ B, n ≤ row.length)
    (is : List Nat) (his : ∀ i ∈ is, i < n) (C : Matrix) (hC : is_square n C) :
    is.foldlM (fun C i => row_loop A B n i (List.range n) C) C
      = some (is.foldl (fun C i => C.set i ((List.range n).map fun j => dot A B n i j)) C) := by
  induction is generalizing C with
  | nil => rfl
  | cons i is ih =>
    have hi : i < n := his i (List.mem_cons_self _ _)
    have hi' : i < C.length := by rw [hC.1]; exact hi
    have hr : (C[i]).length = n := hC.2 _ (List.getElem_mem _)
    have h1 := row_loop_eq n A B hA hB1 hB2 i hi (List.range n) (fun j hj => List.mem_range.mp hj) C
      C[i] hi' (List.getElem?_eq_getElem hi') hr
    rw [foldl_set_range _ n _ hr] at h1
    rw [List.foldlM_cons, h1]
    simp only [Option.bind_eq_bind, Option.some_bind, List.foldl_cons]
    apply ih (fun i hi => his i (List.mem_cons_of_mem _ hi))
    refine ⟨by simpa using hC.1, ?_⟩
    intro row hrow
    rcases List.mem_or_eq_of_mem_set hrow with h | h
    · exact hC.2 _ h
    · simp [h]

theorem multiply_matrices_eq (n : Nat) (A B : Matrix) (hA : is_square n A)
    (hB1 : n ≤ B.length) (hB2 : ∀ row ∈ B, n ≤ row.length) :
    multiply_matrices A B
      = some ((List.range n).map fun i => (List.range n).map fun j => dot A B n i j) := by
  have hC : is_square n (List.replicate n (List.replicate n Double.zero)) := by
    refine ⟨by simp, ?_⟩
    intro row hrow
    rw [List.eq_of_mem_replicate hrow]
    simp
  unfold multiply_matrices
  simp only [hA.1]
  rw [rows_loop_eq n A B hA hB1 hB2 _ (fun i hi => List.mem_range.mp hi) _ hC]
  rw [foldl_set_range (fun i => (List.range n).map fun j => dot A B n i j) n _ hC.1]


/-! ## Lemmas on binary64 arithmetic -/

namespace Double

theorem log2_loop_eq (fuel n : Nat) (h : n ≤ fuel) : log2_loop fuel n = Nat.log2 n := by
  induction fuel generalizing n with
  | zero =>
    have : n = 0 := by omega
    subst this
    simp [log2_loop, Nat.log2_zero]
  | succ fuel ih =>
    unfold log2_loop
    rw [Nat.log2]
    by_cases h2 : 2 ≤ n
    · have : n / 2 ≤ fuel := by omega
      simp [h2, ih _ this]
    · simp [h2]

theorem log2_eq (n : Nat) : log2 n = Nat.log2 n := log2_loop_eq n n (Nat.le_refl n)

theorem log2_unique (n l : Nat) (h1 : 2 ^ l ≤ n) (h2 : n < 2 ^ (l + 1)) : log2 n = l := by
  have hn : n ≠ 0 := by
    have := Nat.pos_pow_of_pos l (by decide : 0 < 2)
    omega
  rw [log2_eq]
  apply Nat.le_antisymm
  · exact Nat.lt_succ_iff.mp ((Nat.log2_lt hn).mpr h2)
  · exact (Nat.le_log2 hn).mpr h1

theorem log2_mul_pow (m k : Nat) (hm : m ≠ 0) : log2 (m * 2 ^ k) = log2 m + k := by
  apply log2_unique
  · rw [Nat.pow_add]
    apply Nat.mul_le_mul_right
    rw [log2_eq]
    exact Nat.log2_self_le hm
  · have : m < 2 ^ (log2 m + 1) := by rw [log2_eq]; exact Nat.lt_log2_self
    calc m * 2 ^ k < 2 ^ (log2 m + 1) * 2 ^ k :=
          Nat.mul_lt_mul_of_pos_right this (Nat.two_pow_pos _)
      _ = 2 ^ (log2 m + k + 1) := by rw [← Nat.pow_add]; congr 1; omega

/-- A value already in binary64 is not changed by rounding, whatever the scale at
which it is presented. -/
theorem round_exact (neg : Bool) (m : Nat) (e : Int) (k : Nat)
    (hv : (finite neg m e).valid = true) (hm : m ≠ 0) :
    round neg (m * 2 ^ k) (e - k) = finite neg m e := by
  simp only [valid, emin, emax, Bool.and_eq_true, Bool.or_eq_true, decide_eq_true_eq] at hv
  obtain ⟨⟨⟨h53, hlo⟩, hhi⟩, hnorm⟩ := hv
  have h2k : 0 < 2 ^ k := Nat.two_pow_pos _
  have hmk : m * 2 ^ k ≠ 0 := Nat.mul_ne_zero hm (Nat.ne_of_gt h2k)
  have hlog : (log2 m : Int) ≤ 52 := by
    have : Nat.log2 m < 53 := (Nat.log2_lt hm).mpr h53
    rw [log2_eq]; omega
  have he1 : max (e - (k : Int) + ((log2 (m * 2 ^ k) : Nat) : Int) - 52) emin = e := by
    rw [log2_mul_pow m k hm]
    rcases hnorm with h | h
    · have : log2 m = 52 := log2_unique m 52 h h53
      simp only [this, emin]
      push_cast
      omega
    · simp only [emin]
      push_cast
      omega
  unfold round
  simp only [hmk, if_false, he1]
  by_cases hk : k = 0
  · subst hk
    simp [emax] at hhi ⊢
    omega
  · have hlt : ¬ (e ≤ e - (k : Int)) := by omega
    have hsh : (e - (e - (k : Int))).toNat = k := by
      have : e - (e - (k : Int)) = (k : Int) := by omega
      rw [this]; simp
    have hq : m * 2 ^ k / 2 ^ k = m := Nat.mul_div_cancel _ h2k
    have hr : m * 2 ^ k % 2 ^ k = 0 := Nat.mul_mod_left _ _
    have hhalf : 0 < 2 ^ (k - 1) := Nat.two_pow_pos _
    have hne : m ≠ 2 ^ 53 := by omega
    simp only [hlt, if_false, hsh, hq, hr]
    have c1 : ¬ (0 > 2 ^ (k - 1) ∨ 0 = 2 ^ (k - 1) ∧ m % 2 = 1) := by
      rintro (h | ⟨h, _⟩) <;> omega
    simp only [c1, if_false, hne]
    simp [emax]
    omega

theorem valid_zero_exp (s : Bool) (e : Int) (hv : (finite s 0 e).valid = true) : e = emin := by
  simp only [valid, Bool.and_eq_true, Bool.or_eq_true, decide_eq_true_eq] at hv
  rcases hv.2 with h | h
  · simp at h
  · exact h

theorem mul_one_eq (a : Double) (hv : a.valid = true) (hf : a.is_finite = true) :
    a * one = a := by
  cases a with
  | finite s m e =>
    show mul (finite s m e) one = _
    simp only [mul, one]
    by_cases hm : m = 0
    · subst hm
      have := valid_zero_exp s e hv
      subst this
      simp [round]
    · have := round_exact s m e 52 hv hm
      have hs : (s != false) = s := by cases s <;> rfl
      rw [hs]
      exact this
  | inf s => simp [is_finite] at hf
  | nan => simp [is_finite] at hf

theorem mul_zero_eq (s : Bool) (m : Nat) (e : Int) :
    finite s m e * zero = finite s 0 emin := by
  show mul (finite s m e) zero = _
  have hs : (s != false) = s := by cases s <;> rfl
  simp [mul, zero, round, hs]

theorem add_signed_zero (s : Bool) (m : Nat) (e : Int) (t : Bool)
    (hv : (finite s m e).valid = true) (hm : m ≠ 0) :
    finite s m e + finite t 0 emin = finite s m e := by
  show add (finite s m e) (finite t 0 emin) = _
  have hlo : emin ≤ e := by
    simp only [valid, Bool.and_eq_true, decide_eq_true_eq] at hv
    exact hv.1.1.2
  obtain ⟨k, hk⟩ : ∃ k : Nat, e - emin = k := ⟨(e - emin).toNat, by omega⟩
  have he : emin = e - k := by omega
  have hmin : min e emin = emin := min_eq_right hlo
  have h2k : 0 < 2 ^ k := Nat.two_pow_pos _
  have hpos : 0 < m * 2 ^ k := Nat.mul_pos (Nat.pos_of_ne_zero hm) h2k
  simp only [add, hmin, hk, Int.toNat_ofNat, sub_self, Int.toNat_zero, pow_zero, mul_one,
    Nat.zero_mul, Nat.cast_zero, mul_zero, add_zero]
  cases s with
  | false =>
    have hz : ¬ ((1 : Int) * ((m * 2 ^ k : Nat) : Int) = 0) := by
      rw [one_mul]; exact_mod_cast Nat.ne_of_gt hpos
    have hn : ¬ ((1 : Int) * ((m * 2 ^ k : Nat) : Int) < 0) := by
      rw [one_mul]; exact_mod_cast Nat.not_lt_zero _
    simp only [Bool.false_eq_true, if_false, hz, hn, decide_False]
    rw [one_mul, Int.natAbs_ofNat]
    conv_lhs => rw [he]
    exact round_exact false m e k hv hm
  | true =>
    have hz : ¬ ((-1 : Int) * ((m * 2 ^ k : Nat) : Int) = 0) := by
      have : (0 : Int) < ((m * 2 ^ k : Nat) : Int) := by exact_mod_cast hpos
      omega
    have hn : ((-1 : Int) * ((m * 2 ^ k : Nat) : Int) < 0) := by
      have : (0 : Int) < ((m * 2 ^ k : Nat) : Int) := by exact_mod_cast hpos
      omega
    simp only [if_true, hz, if_false, hn, decide_True]
    rw [neg_one_mul, Int.natAbs_neg, Int.natAbs_ofNat]
    conv_lhs => rw [he]
    exact round_exact true m e k hv hm

theorem zero_add_signed_zero (t : Bool) : zero + finite t 0 emin = zero := by
  show add zero (finite t 0 emin) = _
  simp [add, zero]

theorem zero_add_eq (s : Bool) (m : Nat) (e : Int)
    (hv : (finite s m e).valid = true) (hm : m ≠ 0) :
    zero + finite s m e = finite s m e := by
  show add zero (finite s m e) = _
  have hlo : emin ≤ e := by
    simp only [valid, Bool.and_eq_true, decide_eq_true_eq] at hv
    exact hv.1.1.2
  obtain ⟨k, hk⟩ : ∃ k : Nat, e - emin = k := ⟨(e - emin).toNat, by omega⟩
  have he : emin = e - k := by omega
  have hmin : min emin e = emin := min_eq_left hlo
  have h2k : 0 < 2 ^ k := Nat.two_pow_pos _
  have hpos : 0 < m * 2 ^ k := Nat.mul_pos (Nat.pos_of_ne_zero hm) h2k
  simp only [add, zero, hmin, hk, Int.toNat_ofNat, sub_self, Int.toNat_zero, pow_zero, mul_one,
    Nat.zero_mul, Nat.cast_zero, mul_zero, zero_add, Bool.false_eq_true, if_false]
  cases s with
  | false =>
    have hz : ¬ ((1 : Int) * ((m * 2 ^ k : Nat) : Int) = 0) := by
      rw [one_mul]; exact_mod_cast Nat.ne_of_gt hpos
    have hn : ¬ ((1 : Int) * ((m * 2 ^ k : Nat) : Int) < 0) := by
      rw [one_mul]; exact_mod_cast Nat.not_lt_zero _
    simp only [Bool.false_eq_true, if_false, hz, hn, decide_False]
    rw [one_mul, Int.natAbs_ofNat]
    conv_lhs => rw [he]
    exact round_exact false m e k hv hm
  | true =>
    have hz : ¬ ((-1 : Int) * ((m * 2 ^ k : Nat) : Int) = 0) := by
      have : (0 : Int) < ((m * 2 ^ k : Nat) : Int) := by exact_mod_cast hpos
      omega
    have hn : ((-1 : Int) * ((m * 2 ^ k : Nat) : Int) < 0) := by
      have : (0 : Int) < ((m * 2 ^ k : Nat) : Int) := by exact_mod_cast hpos
      omega
    simp only [if_true, hz, if_false, hn, decide_True]
    rw [neg_one_mul, Int.natAbs_neg, Int.natAbs_ofNat]
    conv_lhs => rw [he]
    exact round_exact true m e k hv hm

/-- Adding the zero product `a * 0.0` leaves an accumulator unchanged when the
accumulator is `+0.0` or a nonzero finite value. -/
theorem add_mul_zero (s a : Double) (hsv : s.valid = true) (hsf : s.is_finite = true)
    (hsc : s.clear_zero_sign = s) (haf : a.is_finite = true) : s + a * zero = s := by
  cases a with
  | finite t k f =>
    rw [mul_zero_eq]
    cases s with
    | finite sg m e =>
      by_cases hm : m = 0
      · subst hm
        have he := valid_zero_exp sg e hsv
        subst he
        simp only [clear_zero_sign, if_true] at hsc
        rw [← hsc]
        exact zero_add_signed_zero t
      · exact add_signed_zero sg m e t hsv hm
    | inf _ => simp [is_finite] at hsf
    | nan => simp [is_finite] at hsf
  | inf _ => simp [is_finite] at haf
  | nan => simp [is_finite] at haf

/-- Adding the product `a * 1.0` to `+0.0` gives `a`, with `-0.0` turned into `+0.0`. -/
theorem zero_add_mul_one (a : Double) (hv : a.valid = true) (hf : a.is_finite = true) :
    zero + a * one = a.clear_zero_sign := by
  rw [mul_one_eq a hv hf]
  cases a with
  | finite t m e =>
    by_cases hm : m = 0
    · subst hm
      have he := valid_zero_exp t e hv
      subst he
      simp only [clear_zero_sign, if_true]
      exact zero_add_signed_zero t
    · simp only [clear_zero_sign, hm, if_false]
      exact zero_add_eq t m e hv hm
  | inf _ => simp [is_finite] at hf
  | nan => simp [is_finite] at hf

theorem clear_zero_sign_props (a : Double) (hv : a.valid = true) (hf : a.is_finite = true) :
    a.clear_zero_sign.valid = true ∧ a.clear_zero_sign.is_finite = true ∧
      a.clear_zero_sign.clear_zero_sign = a.clear_zero_sign := by
  cases a with
  | finite t m e =>
    by_cases hm : m = 0
    · subst hm
      simp only [clear_zero_sign, if_true, is_finite, and_self, and_true]
      simpa [valid] using hv
    · simp only [clear_zero_sign, hm, if_false, is_finite, and_self, and_true]
      exact hv
  | inf _ => simp [is_finite] at hf
  | nan => simp [is_finite] at hf

theorem eq_clear_zero_sign (a : Double) (hf : a.is_finite = true) :
    Double.eq a.clear_zero_sign a = true := by
  cases a with
  | finite t m e =>
    by_cases hm : m = 0
    · simp [clear_zero_sign, hm, Double.eq]
    · simp [clear_zero_sign, hm, Double.eq]
  | inf _ => simp [is_finite] at hf
  | nan => simp [is_finite] at hf

end Double

/-! ## Multiplication by the identity -/

theorem identity_getD (n k j : Nat) (hk : k < n) (hj : j < n) :
    ((identity n).getD k []).getD j Double.zero = if k = j then Double.one else Double.zero := by
  simp [identity, List.getD_eq_getElem?_getD, hk, hj]

theorem getD_props (n : Nat) (A : Matrix) (hA : is_square n A) (hfin : all_finite A)
    (i k : Nat) (hi : i < n) (hk : k < n) :
    ((A.getD i []).getD k Double.zero).valid = true ∧
      ((A.getD i []).getD k Double.zero).is_finite = true := by
  obtain ⟨hlen, hrow⟩ := hA
  have hi' : i < A.length := by omega
  have hr : (A[i]).length = n := hrow _ (List.getElem_mem _)
  have hk' : k < (A[i]).length := by omega
  have : (A.getD i []).getD k Double.zero = (A[i])[k] := by
    simp [List.getD_eq_getElem?_getD, hi', hk']
  rw [this]
  exact hfin _ (List.getElem_mem _) _ (List.getElem_mem _)

theorem fold_off_diagonal (n : Nat) (A : Matrix) (hA : is_square n A) (hfin : all_finite A)
    (i j : Nat) (hi : i < n) (hj : j < n) (ks : List Nat) (hks : ∀ k ∈ ks, k < n ∧ k ≠ j)
    (s : Double) (hsv : s.valid = true) (hsf : s.is_finite = true)
    (hsc : s.clear_zero_sign = s) :
    ks.foldl (fun s k => s + ((A.getD i []).getD k Double.zero)
      * (((identity n).getD k []).getD j Double.zero)) s = s := by
  induction ks with
  | nil => rfl
  | cons k ks ih =>
    obtain ⟨hk, hne⟩ := hks k (List.mem_cons_self _ _)
    rw [List.foldl_cons, identity_getD n k j hk hj, if_neg hne,
      Double.add_mul_zero s _ hsv hsf hsc (getD_props n A hA hfin i k hi hk).2]
    exact ih (fun k hk => hks k (List.mem_cons_of_mem _ hk))

theorem dot_identity (n : Nat) (A : Matrix) (hA : is_square n A) (hfin : all_finite A)
    (i j : Nat) (hi : i < n) (hj : j < n) :
    dot A (identity n) n i j = ((A.getD i []).getD j Double.zero).clear_zero_sign := by
  obtain ⟨b, hb⟩ : ∃ b, n = j + (b + 1) := ⟨n - j - 1, by omega⟩
  have hsplit : List.range n = List.range j ++ j :: (List.range b).map (fun x => j + (x + 1)) := by
    rw [hb, List.range_add, List.range_succ_eq_map]
    simp [Function.comp_def]
  obtain ⟨hav, haf⟩ := getD_props n A hA hfin i j hi hj
  obtain ⟨pv, pf, pc⟩ := Double.clear_zero_sign_props _ hav haf
  unfold dot
  rw [hsplit, List.foldl_append, List.foldl_cons]
  rw [fold_off_diagonal n A hA hfin i j hi hj (List.range j)
    (fun k hk => by have := List.mem_range.mp hk; omega) Double.zero (by decide) (by decide)
    (by decide)]
  rw [identity_getD n j j hj hj, if_pos rfl, Double.zero_add_mul_one _ hav haf]
  apply fold_off_diagonal n A hA hfin i j hi hj _ _ _ pv pf pc
  intro k hk
  obtain ⟨x, hx, rfl⟩ := List.mem_map.mp hk
  have := List.mem_range.mp hx
  omega

theorem multiply_identity_eq (n : Nat) (A : Matrix) (hA : is_square n A) (hfin : all_finite A) :
    multiply_matrices A (identity n)
      = some (A.map fun row => row.map Double.clear_zero_sign) := by
  have hI : is_square n (identity n) := by
    refine ⟨by simp [identity], ?_⟩
    intro row hrow
    simp only [identity, List.mem_map] at hrow
    obtain ⟨i, _, rfl⟩ := hrow
    simp
  rw [multiply_matrices_eq n A (identity n) hA (Nat.le_of_eq hI.1.symm)
    (fun r hr => Nat.le_of_eq (hI.2 r hr).symm)]
  congr 1
  obtain ⟨hlen, hrow⟩ := hA
  apply List.ext_getElem
  · simp [hlen]
  · intro i h1 h2
    have hi : i < n := by simpa using h1
    have hi' : i < A.length := by omega
    have hr : (A[i]).length = n := hrow _ (List.getElem_mem _)
    simp only [List.getElem_map, List.getElem_range]
    apply List.ext_getElem
    · simp [hr]
    · intro j h3 h4
      have hj : j < n := by simpa using h3
      simp only [List.getElem_map, List.getElem_range]
      rw [dot_identity n A ⟨hlen, hrow⟩ hfin i j hi hj]
      congr 1
      simp [List.getD_eq_getElem?_getD, hi', hr, hj]

/-! ## Lemmas on the scanner: the primitives -/

theorem find_loop_shift (c : Char) (l : List Char) (pos : Nat) :
    find_loop c l pos = (find_loop c l 0).map (· + pos) := by
  induction l generalizing pos with
  | nil => rfl
  | cons d rest ih =>
    unfold find_loop
    by_cases h : d = c
    · simp [h]
    · simp only [h, if_false]
      rw [ih (pos + 1), ih (0 + 1)]
      cases find_loop c rest 0 with
      | none => rfl
      | some i => simp only [Option.map_some']; congr 1; omega

theorem find_loop_some (c : Char) (l : List Char) (pos i : Nat) (h : find_loop c l pos = some i) :
    ∃ w rest, l = w ++ c :: rest ∧ c ∉ w ∧ i = pos + w.length := by
  induction l generalizing pos with
  | nil => simp [find_loop] at h
  | cons d l ih =>
    unfold find_loop at h
    by_cases hd : d = c
    · simp only [hd, if_true, Option.some.injEq] at h
      exact ⟨[], l, by simp [hd], by simp, by simp [h]⟩
    · simp only [hd, if_false] at h
      obtain ⟨w, rest, h1, h2, h3⟩ := ih (pos + 1) h
      refine ⟨d :: w, rest, by simp [h1], ?_, by simp [h3]; omega⟩
      simp only [List.mem_cons, not_or]
      exact ⟨fun e => hd e.symm, h2⟩

theorem find_loop_none (c : Char) (l : List Char) (pos : Nat) (h : find_loop c l pos = none) :
    c ∉ l := by
  induction l generalizing pos with
  | nil => simp
  | cons d l ih =>
    unfold find_loop at h
    by_cases hd : d = c
    · simp [hd] at h
    · simp only [hd, if_false] at h
      simp only [List.mem_cons, not_or]
      exact ⟨fun e => hd e.symm, ih _ h⟩

theorem find_loop_append (c : Char) (w rest : List Char) (pos : Nat) (hw : c ∉ w) :
    find_loop c (w ++ c :: rest) pos = some (pos + w.length) := by
  induction w generalizing pos with
  | nil => simp [find_loop]
  | cons d w ih =>
    simp only [List.mem_cons, not_or] at hw
    have hd : ¬ d = c := fun e => hw.1 e.symm
    show find_loop c (d :: (w ++ c :: rest)) pos = _
    rw [find_loop, if_neg hd, ih (pos + 1) hw.2, List.length_cons]
    exact congrArg some (by omega)

theorem find_loop_not_mem (c : Char) (l : List Char) (pos : Nat) (h : c ∉ l) :
    find_loop c l pos = none := by
  induction l generalizing pos with
  | nil => rfl
  | cons d l ih =>
    simp only [List.mem_cons, not_or] at h
    have hd : ¬ d = c := fun e => h.1 e.symm
    simp [find_loop, hd, ih _ h.2]

theorem find_append (pre t : List Char) (c : Char) (pos : Nat) :
    find (pre ++ t) c (pre.length + pos) = (find t c pos).map (· + pre.length) := by
  unfold find
  rw [List.drop_append, find_loop_shift c _ (pre.length + pos), find_loop_shift c _ pos]
  cases find_loop c (List.drop pos t) 0 with
  | none => rfl
  | some i => simp; omega

theorem skip_separators_shift (l : List Char) (pos : Nat) :
    skip_separators l pos = skip_separators l 0 + pos := by
  induction l generalizing pos with
  | nil => simp [skip_separators]
  | cons d rest ih =>
    unfold skip_separators
    by_cases h : is_separator d = true
    · simp only [h, if_true]
      rw [ih (pos + 1), ih (0 + 1)]
      omega
    · simp [h]

theorem skip_separators_le (l : List Char) : skip_separators l 0 ≤ l.length := by
  induction l with
  | nil => simp [skip_separators]
  | cons d rest ih =>
    unfold skip_separators
    by_cases h : is_separator d = true
    · simp only [h, if_true]
      rw [skip_separators_shift]
      simp; omega
    · simp [h]

theorem head?_drop_lt (l : List Char) (n : Nat) (c : Char)
    (h : ((l.drop n).head? == some c) = true) : n < l.length := by
  by_contra hn
  have : l.drop n = [] := List.drop_eq_nil_of_le (by omega)
  simp [this] at h

theorem sign_length_le (l : List Char) (n : Nat)
    (hn : n = if (l.head? == some '-' || l.head? == some '+') = true then 1 else 0) :
    n ≤ l.length := by
  cases l with
  | nil => simp at hn; omega
  | cons c l =>
    have : n ≤ 1 := by rw [hn]; split <;> omega
    simp; omega

/-- The conversion consumes at least one character and no more than the token. -/
theorem stod_end_le (str : List Char) (v : Double) (k : Nat) (h : stod str = .ok (v, k)) :
    1 ≤ k ∧ k ≤ str.length := by
  unfold stod at h
  lift_lets at h
  extract_lets neg n0 ip s2 has_dot fp n1 s3 has_e s4 eneg kk ed has_exp end_pos ex x mant p q res tiny at h
  split at h
  · cases h
  · rename_i hne
    have hend : k = end_pos := by
      clear_value res tiny
      split at h
      · split at h
        · simp at h
        · simp only [Except.ok.injEq, Prod.mk.injEq] at h
          exact h.2.symm
      · simp at h
    subst hend
    have hn0 : n0 ≤ str.length := sign_length_le str n0 rfl
    have hip : n0 + ip.length ≤ str.length := by
      have h1 : ip.length ≤ (str.drop n0).length := (List.takeWhile_sublist _).length_le
      rw [List.length_drop] at h1
      omega
    have hn1 : n1 ≤ str.length ∧ 1 ≤ n1 := by
      by_cases hd : has_dot = true
      · have h1 : n0 + ip.length < str.length := head?_drop_lt str _ '.' hd
        have h2 : fp.length ≤ ((s2.drop 1)).length := by
          simp only [fp, hd, if_true]
          exact (List.takeWhile_sublist _).length_le
        simp only [s2, List.length_drop] at h2
        have h3 : n1 = n0 + ip.length + (1 + fp.length) := by simp only [n1, hd, if_true]
        omega
      · have hfp : fp = [] := by simp only [fp, hd]; rfl
        have hipne : ip ≠ [] := by
          intro hipe
          apply hne
          simp [hipe, hfp]
        have : 0 < ip.length := List.length_pos.mpr hipne
        have h3 : n1 = n0 + ip.length + 0 := by simp only [n1, hd]; rfl
        omega
    by_cases hx : has_exp = true
    · have he : has_e = true := by
        simp only [has_exp, Bool.and_eq_true] at hx
        exact hx.1
      have h3 : n1 < str.length := by
        simp only [has_e, Bool.or_eq_true] at he
        rcases he with he | he
        · exact head?_drop_lt str _ 'e' he
        · exact head?_drop_lt str _ 'E' he
      have h4 : s4.length = str.length - n1 - 1 := by
        simp only [s4, s3, List.length_drop]
      have h5 : ed.length ≤ (s4.drop kk).length := (List.takeWhile_sublist _).length_le
      rw [List.length_drop] at h5
      have h6 : kk ≤ s4.length := sign_length_le s4 kk rfl
      have h7 : end_pos = n1 + 1 + kk + ed.length := by simp only [end_pos, hx, if_true]
      omega
    · have h7 : end_pos = n1 := by simp only [end_pos, hx]; rfl
      omega

/-! ## Lemmas on the scanner: the loops -/

theorem skip_separators_ge (l : List Char) (pos : Nat) : pos ≤ skip_separators l pos := by
  rw [skip_separators_shift]; omega

theorem value_pass_next_lt (content : List Char) (pos : Nat) (row : List Double) (p : Nat)
    (r : List Double) (h : value_pass content pos row = .next p r) : pos < p := by
  unfold value_pass token_pass at h
  have h1 := skip_separators_ge (content.drop pos) pos
  simp only at h
  split at h
  · cases h
  · split at h
    · simp only [ValuePass.next.injEq] at h
      omega
    · split at h
      · cases h
      · split at h
        · cases h
        · simp only [ValuePass.next.injEq] at h
          omega

theorem value_pass_stop_le (content : List Char) (pos : Nat) (row : List Double) (p : Nat)
    (r : List Double) (h : value_pass content pos row = .stop p r) : pos ≤ p := by
  unfold value_pass token_pass at h
  have h1 := skip_separators_ge (content.drop pos) pos
  simp only at h
  split at h
  · simp only [ValuePass.stop.injEq] at h
    omega
  · split at h
    · cases h
    · split at h
      · cases h
      · split at h
        · cases h
        · cases h

theorem value_pass_fail (content : List Char) (pos : Nat) (row : List Double) (e : ScanError)
    (h : value_pass content pos row = .fail e) : e = .conversion := by
  unfold value_pass token_pass at h
  simp only at h
  split at h
  · cases h
  · split at h
    · cases h
    · split at h
      · simp only [ValuePass.fail.injEq] at h
        exact h.symm
      · split at h
        · simp only [ValuePass.fail.injEq] at h
          exact h.symm
        · cases h

/-- The value loop gives the same result whatever the bound on its passes, once the
bound covers the text that remains. -/
theorem scan_row_fuel (content : List Char) (f1 f2 pos : Nat) (row : List Double)
    (h1 : content.length - pos ≤ f1) (h2 : content.length - pos ≤ f2) :
    scan_row content f1 pos row = scan_row content f2 pos row := by
  induction f1 generalizing f2 pos row with
  | zero =>
    have hp : ¬ (pos < content.length ∧ content[pos]? ≠ some ']') := by omega
    cases f2 <;> simp [scan_row, hp]
  | succ f1 ih =>
    by_cases hp : pos < content.length ∧ content[pos]? ≠ some ']'
    · cases f2 with
      | zero => omega
      | succ f2 =>
        simp only [scan_row]
        rw [if_pos hp, if_pos hp]
        cases hv : value_pass content pos row with
        | next p r =>
          have hlt := value_pass_next_lt content pos row p r hv
          have h3 : content.length - p ≤ f1 := by omega
          have h4 : content.length - p ≤ f2 := by omega
          exact ih f2 p r h3 h4
        | stop p r => rfl
        | fail e => rfl
    · cases f2 <;> simp [scan_row, hp]

/-- One unfolding of the value loop with the bound kept. -/
theorem scan_row_unfold (content : List Char) (fuel pos : Nat) (row : List Double)
    (h : content.length - pos ≤ fuel) :
    scan_row content fuel pos row =
      if pos < content.length ∧ content[pos]? ≠ some ']' then
        match value_pass content pos row with
        | .next pos1 row1 => scan_row content fuel pos1 row1
        | .stop pos1 row1 => .ok (pos1, row1)
        | .fail e => .error e
      else .ok (pos, row) := by
  cases fuel with
  | zero =>
    have hp : ¬ (pos < content.length ∧ content[pos]? ≠ some ']') := by omega
    simp [scan_row, hp]
  | succ f =>
    by_cases hp : pos < content.length ∧ content[pos]? ≠ some ']'
    · simp only [scan_row]
      rw [if_pos hp, if_pos hp]
      cases hv : value_pass content pos row with
      | next p r =>
        have := value_pass_next_lt content pos row p r hv
        exact scan_row_fuel content f (f + 1) p r (by omega) (by omega)
      | stop p r => rfl
      | fail e => rfl
    · simp [scan_row, hp]

theorem scan_row_pos_le (content : List Char) (fuel pos : Nat) (row : List Double) (p : Nat)
    (r : List Double) (h : scan_row content fuel pos row = .ok (p, r)) : pos ≤ p := by
  induction fuel generalizing pos row with
  | zero =>
    unfold scan_row at h
    split at h
    · cases h
    · simp only [Except.ok.injEq, Prod.mk.injEq] at h
      omega
  | succ f ih =>
    unfold scan_row at h
    split at h
    · cases hv : value_pass content pos row with
      | next p1 r1 =>
        rw [hv] at h
        have := value_pass_next_lt content pos row p1 r1 hv
        have := ih p1 r1 h
        omega
      | stop p1 r1 =>
        rw [hv] at h
        simp only [Except.ok.injEq, Prod.mk.injEq] at h
        have := value_pass_stop_le content pos row p1 r1 hv
        omega
      | fail e =>
        rw [hv] at h
        cases h
    · simp only [Except.ok.injEq, Prod.mk.injEq] at h
      omega

/-- With a bound that covers the text the value loop fails only on a conversion. -/
theorem scan_row_error (content : List Char) (fuel pos : Nat) (row : List Double) (e : ScanError)
    (hf : content.length - pos ≤ fuel) (h : scan_row content fuel pos row = .error e) :
    e = .conversion := by
  induction fuel generalizing pos row with
  | zero =>
    have hp : ¬ (pos < content.length ∧ content[pos]? ≠ some ']') := by omega
    unfold scan_row at h
    rw [if_neg hp] at h
    cases h
  | succ f ih =>
    unfold scan_row at h
    split at h
    · rename_i hp
      cases hv : value_pass content pos row with
      | next p1 r1 =>
        rw [hv] at h
        have := value_pass_next_lt content pos row p1 r1 hv
        exact ih p1 r1 (by omega) h
      | stop p1 r1 =>
        rw [hv] at h
        cases h
      | fail e1 =>
        rw [hv] at h
        simp only [Except.error.injEq] at h
        rw [← h]
        exact value_pass_fail content pos row e1 hv
    · cases h

theorem getElem?_append_add (pre t : List Char) (q : Nat) :
    (pre ++ t)[pre.length + q]? = t[q]? := by
  rw [List.getElem?_append_right (by omega)]
  congr 1
  omega

theorem token_pass_append (pre t : List Char) (q : Nat) (row : List Double) :
    token_pass (pre ++ t) (pre.length + q) row =
      match token_pass t q row with
      | .next p r => .next (pre.length + p) r
      | .stop p r => .stop (pre.length + p) r
      | .fail e => .fail e := by
  unfold token_pass
  rw [getElem?_append_add, List.drop_append]
  simp only
  split
  · rfl
  · split
    · rfl
    · split
      · rfl
      · split
        · rfl
        · simp only [Nat.add_assoc]

theorem value_pass_append (pre t : List Char) (pos : Nat) (row : List Double) :
    value_pass (pre ++ t) (pre.length + pos) row =
      match value_pass t pos row with
      | .next p r => .next (pre.length + p) r
      | .stop p r => .stop (pre.length + p) r
      | .fail e => .fail e := by
  unfold value_pass
  rw [List.drop_append, skip_separators_shift _ (pre.length + pos)]
  have : skip_separators (List.drop pos t) 0 + (pre.length + pos)
      = pre.length + skip_separators (List.drop pos t) pos := by
    rw [skip_separators_shift _ pos]; omega
  rw [this]
  exact token_pass_append pre t _ row

/-- The value loop on a text behaves as on the text without a prefix, positions
being counted from the end of the prefix. -/
theorem scan_row_append (pre t : List Char) (fuel pos : Nat) (row : List Double) :
    scan_row (pre ++ t) fuel (pre.length + pos) row
      = match scan_row t fuel pos row with
        | .ok (p, r) => .ok (pre.length + p, r)
        | .error e => .error e := by
  have hc : ∀ pos, (pre.length + pos < (pre ++ t).length ∧ (pre ++ t)[pre.length + pos]? ≠ some ']')
      ↔ (pos < t.length ∧ t[pos]? ≠ some ']') := by
    intro pos
    rw [getElem?_append_add, List.length_append]
    constructor
    · rintro ⟨h1, h2⟩; exact ⟨by omega, h2⟩
    · rintro ⟨h1, h2⟩; exact ⟨by omega, h2⟩
  induction fuel generalizing pos row with
  | zero =>
    unfold scan_row
    by_cases hp : pos < t.length ∧ t[pos]? ≠ some ']'
    · rw [if_pos ((hc pos).mpr hp), if_pos hp]
    · rw [if_neg (fun h => hp ((hc pos).mp h)), if_neg hp]
  | succ f ih =>
    unfold scan_row
    by_cases hp : pos < t.length ∧ t[pos]? ≠ some ']'
    · rw [if_pos ((hc pos).mpr hp), if_pos hp, value_pass_append]
      cases hv : value_pass t pos row with
      | next p r => exact ih p r
      | stop p r => rfl
      | fail e => rfl
    · rw [if_neg (fun h => hp ((hc pos).mp h)), if_neg hp]

/-! ## The rest of a row, from the text that remains -/

theorem row_close_of_scan (pre t : List Char) (pos pos1 : Nat) (row row1 : List Double)
    (hscan : scan_row (pre ++ t) (pre ++ t).length pos row
      = match scan_row t t.length pos1 row1 with
        | .ok (p, r) => .ok (pre.length + p, r)
        | .error e => .error e) :
    row_close_from (pre ++ t) pos row = row_close_from t pos1 row1 := by
  unfold row_close_from
  rw [hscan]
  cases scan_row t t.length pos1 row1 with
  | error e => rfl
  | ok pr =>
    obtain ⟨p, r⟩ := pr
    simp only
    rw [find_append]
    cases find t ']' p with
    | none => rfl
    | some eb =>
      simp only [Option.map_some']
      have : eb + pre.length + 1 = pre.length + (eb + 1) := by omega
      rw [this, List.drop_append]

theorem row_close_from_append (pre t : List Char) (pos : Nat) (row : List Double) :
    row_close_from (pre ++ t) (pre.length + pos) row = row_close_from t pos row := by
  apply row_close_of_scan
  rw [scan_row_append, scan_row_fuel t (pre ++ t).length t.length pos row
    (by simp; omega) (by omega)]

theorem row_close_from_next (content : List Char) (pos : Nat) (row : List Double) (p : Nat)
    (r : List Double) (hc : pos < content.length ∧ content[pos]? ≠ some ']')
    (hv : value_pass content pos row = .next p r) :
    row_close_from content pos row = row_close_from content p r := by
  unfold row_close_from
  rw [scan_row_unfold content content.length pos row (by omega), if_pos hc, hv]

theorem row_close_nil (row : List Double) :
    row_close [] row = .error .unterminated_row := by
  simp [row_close, row_close_from, scan_row, find, find_loop]

theorem row_close_bracket (rest : List Char) (row : List Double) :
    row_close (']' :: rest) row = .ok (rest, row) := by
  simp [row_close, row_close_from, scan_row, find, find_loop]

theorem is_separator_ne_bracket (c : Char) (h : is_separator c = true) : c ≠ ']' := by
  rintro rfl
  revert h
  decide

theorem is_numeric_ne_bracket (c : Char) (h : is_numeric_char c = true) : c ≠ ']' := by
  rintro rfl
  revert h
  decide

theorem is_numeric_not_separator (c : Char) (h : is_numeric_char c = true) :
    is_separator c = false := by
  by_contra hs
  simp only [Bool.not_eq_false] at hs
  simp only [is_separator, Bool.or_eq_true, beq_iff_eq] at hs
  rcases hs with (((rfl | rfl) | rfl) | rfl) | rfl <;> revert h <;> decide

/-- A character that the value loop skips on its own: not a separator, not `']'`,
not in the numeric class. -/
theorem row_close_skip (c : Char) (rest : List Char) (row : List Double)
    (h1 : is_separator c = false) (h2 : c ≠ ']') (h3 : is_numeric_char c = false) :
    row_close (c :: rest) row = row_close rest row := by
  have hc : 0 < (c :: rest).length ∧ (c :: rest)[0]? ≠ some ']' := by
    simp [h2]
  have hv : value_pass (c :: rest) 0 row = .next 1 row := by
    simp [value_pass, skip_separators, h1, token_pass, h2, h3]
  unfold row_close
  rw [row_close_from_next _ 0 row 1 row hc hv]
  exact row_close_from_append [c] rest 0 row

theorem row_close_number (c : Char) (rest : List Char) (row : List Double) (v : Double) (k : Nat)
    (h : is_numeric_char c = true)
    (hs : stod ((c :: rest).takeWhile is_numeric_char) = .ok (v, k)) :
    row_close (c :: rest) row = row_close ((c :: rest).drop k) (row ++ [v]) := by
  have h2 := is_numeric_ne_bracket c h
  have h1 := is_numeric_not_separator c h
  have hc : 0 < (c :: rest).length ∧ (c :: rest)[0]? ≠ some ']' := by
    simp [h2]
  obtain ⟨hk1, hk2⟩ := stod_end_le _ v k hs
  have hk0 : k ≠ 0 := by omega
  have hv : value_pass (c :: rest) 0 row = .next k (row ++ [v]) := by
    have hne : ¬ (List.takeWhile is_numeric_char (c :: rest)).isEmpty = true := by
      simp [List.takeWhile_cons, h]
    have hsk : skip_separators ((c :: rest).drop 0) 0 = 0 := by simp [skip_separators, h1]
    unfold value_pass
    rw [hsk]
    unfold token_pass
    simp only [List.drop_zero]
    rw [if_neg (by simp [h2]), if_neg hne, hs]
    simp [hk0]
  have hlen : k ≤ (c :: rest).length :=
    Nat.le_trans hk2 (List.takeWhile_sublist _).length_le
  unfold row_close
  rw [row_close_from_next _ 0 row k (row ++ [v]) hc hv]
  have := row_close_from_append ((c :: rest).take k) ((c :: rest).drop k) 0 (row ++ [v])
  rw [List.take_append_drop, List.length_take, Nat.min_eq_left hlen] at this
  exact this

theorem row_close_number_error (c : Char) (rest : List Char) (row : List Double) (e : StodError)
    (h : is_numeric_char c = true)
    (hs : stod ((c :: rest).takeWhile is_numeric_char) = .error e) :
    row_close (c :: rest) row = .error .conversion := by
  have h2 := is_numeric_ne_bracket c h
  have h1 := is_numeric_not_separator c h
  have hc : 0 < (c :: rest).length ∧ (c :: rest)[0]? ≠ some ']' := by
    simp [h2]
  have hv : value_pass (c :: rest) 0 row = .fail .conversion := by
    have hne : ¬ (List.takeWhile is_numeric_char (c :: rest)).isEmpty = true := by
      simp [List.takeWhile_cons, h]
    have hsk : skip_separators ((c :: rest).drop 0) 0 = 0 := by simp [skip_separators, h1]
    unfold value_pass
    rw [hsk]
    unfold token_pass
    simp only [List.drop_zero]
    rw [if_neg (by simp [h2]), if_neg hne, hs]
  unfold row_close row_close_from
  rw [scan_row_unfold _ _ 0 row (by omega), if_pos hc, hv]

theorem value_pass_separator (c : Char) (rest : List Char) (row : List Double)
    (h : is_separator c = true) :
    value_pass (c :: rest) 0 row =
      match value_pass rest 0 row with
      | .next p r => .next (1 + p) r
      | .stop p r => .stop (1 + p) r
      | .fail e => .fail e := by
  have hsk : skip_separators ((c :: rest).drop 0) 0 = 1 + skip_separators (rest.drop 0) 0 := by
    simp only [List.drop_zero, skip_separators, h, if_true]
    rw [skip_separators_shift]
    omega
  unfold value_pass
  rw [hsk]
  exact token_pass_append [c] rest _ row

theorem scan_row_separator (c d : Char) (rest : List Char) (fuel : Nat) (row : List Double)
    (h : is_separator c = true) (hd : d ≠ ']') :
    scan_row (c :: d :: rest) fuel 0 row =
      match scan_row (d :: rest) fuel 0 row with
      | .ok (p, r) => .ok (1 + p, r)
      | .error e => .error e := by
  have hc1 : 0 < (c :: d :: rest).length ∧ (c :: d :: rest)[0]? ≠ some ']' := by
    simp [is_separator_ne_bracket c h]
  have hc2 : 0 < (d :: rest).length ∧ (d :: rest)[0]? ≠ some ']' := by
    simp [hd]
  cases fuel with
  | zero =>
    unfold scan_row
    rw [if_pos hc1, if_pos hc2]
  | succ f =>
    unfold scan_row
    rw [if_pos hc1, if_pos hc2, value_pass_separator c (d :: rest) row h]
    cases hv : value_pass (d :: rest) 0 row with
    | next p r => exact scan_row_append [c] (d :: rest) f p r
    | stop p r => rfl
    | fail e => rfl

/-- A separator at the head of the rest of a row is skipped. -/
theorem row_close_separator (c : Char) (rest : List Char) (row : List Double)
    (h : is_separator c = true) :
    row_close (c :: rest) row = row_close rest row := by
  cases rest with
  | nil =>
    simp [row_close, row_close_from, scan_row, value_pass, token_pass, skip_separators, h,
      find, find_loop, is_separator_ne_bracket c h]
  | cons d rest =>
    by_cases hd : d = ']'
    · subst hd
      rw [row_close_bracket]
      have hne := is_separator_ne_bracket c h
      have h0 : is_separator ']' = false := by decide
      simp [row_close, row_close_from, scan_row, value_pass, token_pass, skip_separators, h, h0,
        find, find_loop, hne]
    · unfold row_close
      apply row_close_of_scan [c] (d :: rest) 0 0 row row
      have := scan_row_separator c d rest ([c] ++ d :: rest).length row h hd
      rw [scan_row_fuel (d :: rest) ([c] ++ d :: rest).length (d :: rest).length 0 row
        (by simp) (by simp)] at this
      exact this

/-- With the bound of `row_close` the rest of a row fails only on a conversion or on
a missing closing bracket. -/
theorem row_close_error (text : List Char) (row : List Double) (e : ScanError)
    (h : row_close text row = .error e) : e = .conversion ∨ e = .unterminated_row := by
  unfold row_close row_close_from at h
  cases hs : scan_row text text.length 0 row with
  | error e1 =>
    rw [hs] at h
    simp only [Except.error.injEq] at h
    left
    rw [← h]
    exact scan_row_error text _ 0 row e1 (by omega) hs
  | ok pr =>
    obtain ⟨p, r⟩ := pr
    rw [hs] at h
    simp only at h
    cases hf : find text ']' p with
    | none =>
      rw [hf] at h
      simp only [Except.error.injEq] at h
      right
      exact h.symm
    | some eb =>
      rw [hf] at h
      cases h

/-! ## The row loop, from the text that remains -/

theorem find_ge (content : List Char) (c : Char) (pos i : Nat) (h : find content c pos = some i) :
    pos ≤ i ∧ i < content.length := by
  unfold find at h
  obtain ⟨w, rest, h1, _, h3⟩ := find_loop_some c _ pos i h
  have h4 : (content.drop pos).length = w.length + (rest.length + 1) := by
    rw [h1]; simp
  rw [List.length_drop] at h4
  omega

theorem row_pass_next_lt (content : List Char) (pos : Nat) (m : Matrix) (p : Nat) (m1 : Matrix)
    (h : row_pass content pos m = .next p m1) : pos < p := by
  unfold row_pass at h
  cases hf : find content '[' pos with
  | none => rw [hf] at h; cases h
  | some p0 =>
    rw [hf] at h
    simp only at h
    have h0 := (find_ge content '[' pos p0 hf).1
    cases hs : scan_row content content.length (p0 + 1) [] with
    | error e => rw [hs] at h; cases h
    | ok pr =>
      obtain ⟨p1, row⟩ := pr
      rw [hs] at h
      simp only at h
      have h1 := scan_row_pos_le content _ (p0 + 1) [] p1 row hs
      cases hb : find content ']' p1 with
      | none => rw [hb] at h; cases h
      | some eb =>
        rw [hb] at h
        simp only [RowPass.next.injEq] at h
        have h2 := (find_ge content ']' p1 eb hb).1
        omega

theorem row_pass_fail (content : List Char) (pos : Nat) (m : Matrix) (e : ScanError)
    (h : row_pass content pos m = .fail e) : e = .conversion ∨ e = .unterminated_row := by
  unfold row_pass at h
  cases hf : find content '[' pos with
  | none => rw [hf] at h; cases h
  | some p0 =>
    rw [hf] at h
    simp only at h
    cases hs : scan_row content content.length (p0 + 1) [] with
    | error e1 =>
      rw [hs] at h
      simp only [RowPass.fail.injEq] at h
      left
      rw [← h]
      exact scan_row_error content _ (p0 + 1) [] e1 (by omega) hs
    | ok pr =>
      obtain ⟨p1, row⟩ := pr
      rw [hs] at h
      simp only at h
      cases hb : find content ']' p1 with
      | none =>
        rw [hb] at h
        simp only [RowPass.fail.injEq] at h
        right
        exact h.symm
      | some eb => rw [hb] at h; cases h

/-- The row loop gives the same result whatever the bound on its passes, once the
bound covers the text that remains. -/
theorem scan_rows_fuel (content : List Char) (f1 f2 pos : Nat) (m : Matrix)
    (h1 : content.length - pos ≤ f1) (h2 : content.length - pos ≤ f2) :
    scan_rows content f1 pos m = scan_rows content f2 pos m := by
  induction f1 generalizing f2 pos m with
  | zero =>
    have hp : ¬ (pos < content.length) := by omega
    cases f2 <;> simp [scan_rows, hp]
  | succ f1 ih =>
    by_cases hp : pos < content.length
    · cases f2 with
      | zero => omega
      | succ f2 =>
        simp only [scan_rows]
        rw [if_pos hp, if_pos hp]
        cases hv : row_pass content pos m with
        | next p r =>
          have hlt := row_pass_next_lt content pos m p r hv
          exact ih f2 p r (by omega) (by omega)
        | stop r => rfl
        | fail e => rfl
    · cases f2 <;> simp [scan_rows, hp]

/-- One unfolding of the row loop with the bound kept. -/
theorem scan_rows_unfold (content : List Char) (fuel pos : Nat) (m : Matrix)
    (h : content.length - pos ≤ fuel) :
    scan_rows content fuel pos m =
      if pos < content.length then
        match row_pass content pos m with
        | .next pos1 m1 => scan_rows content fuel pos1 m1
        | .stop m1 => .ok m1
        | .fail e => .error e
      else .ok m := by
  cases fuel with
  | zero =>
    have hp : ¬ (pos < content.length) := by omega
    simp [scan_rows, hp]
  | succ f =>
    by_cases hp : pos < content.length
    · simp only [scan_rows]
      rw [if_pos hp, if_pos hp]
      cases hv : row_pass content pos m with
      | next p r =>
        have := row_pass_next_lt content pos m p r hv
        exact scan_rows_fuel content f (f + 1) p r (by omega) (by omega)
      | stop r => rfl
      | fail e => rfl
    · simp [scan_rows, hp]

/-- With a bound that covers the text the row loop fails only on a conversion or on
a missing closing bracket. -/
theorem scan_rows_error (content : List Char) (fuel pos : Nat) (m : Matrix) (e : ScanError)
    (hf : content.length - pos ≤ fuel) (h : scan_rows content fuel pos m = .error e) :
    e = .conversion ∨ e = .unterminated_row := by
  induction fuel generalizing pos m with
  | zero =>
    have hp : ¬ (pos < content.length) := by omega
    unfold scan_rows at h
    rw [if_neg hp] at h
    cases h
  | succ f ih =>
    unfold scan_rows at h
    split at h
    · cases hv : row_pass content pos m with
      | next p1 r1 =>
        rw [hv] at h
        have := row_pass_next_lt content pos m p1 r1 hv
        exact ih p1 r1 (by omega) h
      | stop r1 => rw [hv] at h; cases h
      | fail e1 =>
        rw [hv] at h
        simp only [Except.error.injEq] at h
        rw [← h]
        exact row_pass_fail content pos m e1 hv
    · cases h

theorem row_pass_append (pre t : List Char) (pos : Nat) (m : Matrix) :
    row_pass (pre ++ t) (pre.length + pos) m =
      match row_pass t pos m with
      | .next p m1 => .next (pre.length + p) m1
      | .stop m1 => .stop m1
      | .fail e => .fail e := by
  unfold row_pass
  rw [find_append]
  cases find t '[' pos with
  | none => rfl
  | some p0 =>
    simp only [Option.map_some']
    have e1 : p0 + pre.length + 1 = pre.length + (p0 + 1) := by omega
    rw [e1, scan_row_append, scan_row_fuel t (pre ++ t).length t.length (p0 + 1) []
      (by simp; omega) (by omega)]
    cases scan_row t t.length (p0 + 1) [] with
    | error e => rfl
    | ok pr =>
      obtain ⟨p1, row⟩ := pr
      simp only
      rw [find_append]
      cases find t ']' p1 with
      | none => rfl
      | some eb =>
        simp only [Option.map_some']
        have e2 : eb + pre.length + 1 = pre.length + (eb + 1) := by omega
        rw [e2]

/-- The row loop on a text behaves as on the text without a prefix. -/
theorem scan_rows_append (pre t : List Char) (fuel pos : Nat) (m : Matrix) :
    scan_rows (pre ++ t) fuel (pre.length + pos) m = scan_rows t fuel pos m := by
  have hc : ∀ pos, pre.length + pos < (pre ++ t).length ↔ pos < t.length := by
    intro pos
    rw [List.length_append]
    omega
  induction fuel generalizing pos m with
  | zero =>
    unfold scan_rows
    by_cases hp : pos < t.length
    · rw [if_pos ((hc pos).mpr hp), if_pos hp]
    · rw [if_neg (fun h => hp ((hc pos).mp h)), if_neg hp]
  | succ f ih =>
    unfold scan_rows
    by_cases hp : pos < t.length
    · rw [if_pos ((hc pos).mpr hp), if_pos hp, row_pass_append]
      cases hv : row_pass t pos m with
      | next p r => exact ih p r
      | stop r => rfl
      | fail e => rfl
    · rw [if_neg (fun h => hp ((hc pos).mp h)), if_neg hp]

/-- The row loop at the head of a text, after a prefix of length `k`. -/
theorem scan_rows_drop (content : List Char) (fuel k : Nat) (m : Matrix)
    (hk : k ≤ content.length) (hf : content.length ≤ fuel) :
    scan_rows content fuel k m = rows_from (content.drop k) m := by
  have h := scan_rows_append (content.take k) (content.drop k) fuel 0 m
  rw [List.take_append_drop, List.length_take, Nat.min_eq_left hk] at h
  rw [Nat.add_zero] at h
  rw [h]
  unfold rows_from
  exact scan_rows_fuel _ _ _ 0 m (by simp; omega) (by omega)

theorem rows_from_nil (m : Matrix) : rows_from [] m = .ok m := by
  simp [rows_from, scan_rows]

/-- A character other than `'['` between rows is passed over by the search of the
next row. -/
theorem rows_from_skip (c : Char) (rest : List Char) (m : Matrix) (h : c ≠ '[') :
    rows_from (c :: rest) m = rows_from rest m := by
  have hf : find (c :: rest) '[' 0 = find (c :: rest) '[' 1 := by
    simp [find, find_loop, h]
  have hrp : row_pass (c :: rest) 0 m = row_pass (c :: rest) 1 m := by
    unfold row_pass
    rw [hf]
  unfold rows_from
  rw [scan_rows_unfold _ _ 0 m (by omega), if_pos (by simp), hrp]
  cases rest with
  | nil => simp [row_pass, find, find_loop, scan_rows]
  | cons d rest =>
    rw [scan_rows_unfold (d :: rest) _ 0 m (by omega), if_pos (by simp)]
    have := row_pass_append [c] (d :: rest) 0 m
    simp only [List.length_singleton, List.singleton_append] at this
    rw [this]
    cases hv : row_pass (d :: rest) 0 m with
    | next p r =>
      simp only
      have h2 := scan_rows_append [c] (d :: rest) (c :: d :: rest).length p r
      simp only [List.length_singleton, List.singleton_append] at h2
      rw [h2]
      have hlt := row_pass_next_lt (d :: rest) 0 m p r hv
      exact scan_rows_fuel _ _ _ p r (by simp; omega) (by omega)
    | stop r => rfl
    | fail e => rfl

/-- A `'['` between rows opens a row: the loop reads the row up to its closing
bracket, keeps it when it has a value, and goes on after the bracket. -/
theorem rows_from_open (rest : List Char) (m : Matrix) :
    rows_from ('[' :: rest) m =
      match row_close rest [] with
      | .error e => .error e
      | .ok (rest1, row) => rows_from rest1 (if row.length > 0 then m ++ [row] else m) := by
  have hf : find ('[' :: rest) '[' 0 = some 0 := by simp [find, find_loop]
  have hs := scan_row_append ['['] rest ('[' :: rest).length 0 []
  simp only [List.length_singleton, List.singleton_append] at hs
  rw [scan_row_fuel rest ('[' :: rest).length rest.length 0 [] (by simp) (by omega)] at hs
  unfold rows_from
  rw [scan_rows_unfold _ _ 0 m (by omega), if_pos (by simp)]
  unfold row_pass
  rw [hf]
  simp only [Nat.zero_add]
  have e1 : (1 : Nat) = 1 + 0 := rfl
  rw [e1, hs]
  unfold row_close row_close_from
  cases hsr : scan_row rest rest.length 0 [] with
  | error e => rfl
  | ok pr =>
    obtain ⟨p1, row⟩ := pr
    simp only
    have hfa := find_append ['['] rest ']' p1
    simp only [List.length_singleton, List.singleton_append] at hfa
    rw [hfa]
    cases hb : find rest ']' p1 with
    | none => rfl
    | some eb =>
      simp only [Option.map_some']
      have hlt := (find_ge rest ']' p1 eb hb).2
      rw [scan_rows_drop ('[' :: rest) _ (eb + 1 + 1) _ (by simp; omega) (by omega)]
      rfl

theorem load_matrix_nil : load_matrix [] = .error .no_opening_bracket := by
  simp [load_matrix, find, find_loop]

theorem load_matrix_open (rest : List Char) : load_matrix ('[' :: rest) = rows_from rest [] := by
  have hf : find ('[' :: rest) '[' 0 = some 0 := by simp [find, find_loop]
  unfold load_matrix
  rw [hf]
  simp only
  rw [scan_rows_drop ('[' :: rest) _ (0 + 1) _ (by simp) (by omega)]
  rfl

theorem load_matrix_skip (c : Char) (rest : List Char) (h : c ≠ '[') :
    load_matrix (c :: rest) = load_matrix rest := by
  unfold load_matrix
  have hf : find (c :: rest) '[' 0 = (find rest '[' 0).map (· + 1) := by
    have := find_append [c] rest '[' 0
    simp only [List.length_singleton, List.singleton_append] at this
    rw [← this]
    simp [find, find_loop, h]
  rw [hf]
  cases hr : find rest '[' 0 with
  | none => rfl
  | some p =>
    simp only [Option.map_some']
    have hlt := (find_ge rest '[' 0 p hr).2
    rw [scan_rows_drop (c :: rest) _ (p + 1 + 1) _ (by simp; omega) (by omega),
      scan_rows_drop rest _ (p + 1) _ (by omega) (by omega)]
    rfl

/-! ## Shape of a row -/

theorem char_cases (c : Char) :
    c = ']' ∨ is_separator c = true ∨ is_numeric_char c = true ∨
      (is_separator c = false ∧ c ≠ ']' ∧ is_numeric_char c = false) := by
  by_cases h1 : c = ']'
  · exact Or.inl h1
  · by_cases h2 : is_separator c = true
    · exact Or.inr (Or.inl h2)
    · by_cases h3 : is_numeric_char c = true
      · exact Or.inr (Or.inr (Or.inl h3))
      · refine Or.inr (Or.inr (Or.inr ⟨?_, h1, ?_⟩))
        · simpa using h2
        · simpa using h3

theorem takeWhile_numeric_not_mem (l : List Char) : ']' ∉ l.takeWhile is_numeric_char := by
  intro h
  have := List.mem_takeWhile_imp h
  revert this
  decide

theorem not_mem_take_token (text : List Char) (k : Nat)
    (hk : k ≤ (text.takeWhile is_numeric_char).length) : ']' ∉ text.take k := by
  intro h
  have h1 : text.take k = (text.takeWhile is_numeric_char).take k := by
    have hp : text.takeWhile is_numeric_char <+: text := List.takeWhile_prefix _
    obtain ⟨s, hs⟩ := hp
    conv_lhs => rw [← hs]
    rw [List.take_append_of_le_length hk]
  rw [h1] at h
  exact takeWhile_numeric_not_mem text (List.mem_of_mem_take h)

/-- When the rest of a row is read to its end, the text handed back starts right
after the first `']'`. -/
theorem row_close_ok (n : Nat) (text : List Char) (hn : text.length ≤ n) (row : List Double)
    (rest1 : List Char) (r : List Double) (h : row_close text row = .ok (rest1, r)) :
    ∃ w, text = w ++ ']' :: rest1 ∧ ']' ∉ w := by
  induction n generalizing text row with
  | zero =>
    have : text = [] := List.eq_nil_of_length_eq_zero (by omega)
    subst this
    rw [row_close_nil] at h
    cases h
  | succ n ih =>
    cases text with
    | nil =>
      rw [row_close_nil] at h
      cases h
    | cons c rest =>
      have hlen : rest.length ≤ n := by simpa using hn
      rcases char_cases c with hc | hc | hc | ⟨h1, h2, h3⟩
      · subst hc
        rw [row_close_bracket] at h
        simp only [Except.ok.injEq, Prod.mk.injEq] at h
        exact ⟨[], by simp [h.1], by simp⟩
      · rw [row_close_separator c rest row hc] at h
        obtain ⟨w, hw1, hw2⟩ := ih rest hlen row h
        refine ⟨c :: w, by simp [hw1], ?_⟩
        simp only [List.mem_cons, not_or]
        exact ⟨fun e => is_separator_ne_bracket c hc e.symm, hw2⟩
      · cases hs : stod ((c :: rest).takeWhile is_numeric_char) with
        | error e =>
          rw [row_close_number_error c rest row e hc hs] at h
          cases h
        | ok vk =>
          obtain ⟨v, k⟩ := vk
          rw [row_close_number c rest row v k hc hs] at h
          obtain ⟨hk1, hk2⟩ := stod_end_le _ v k hs
          have hd : ((c :: rest).drop k).length ≤ n := by
            rw [List.length_drop]
            simp only [List.length_cons] at hn ⊢
            omega
          obtain ⟨w, hw1, hw2⟩ := ih _ hd _ h
          refine ⟨(c :: rest).take k ++ w, ?_, ?_⟩
          · rw [List.append_assoc, ← hw1, List.take_append_drop]
          · simp only [List.mem_append, not_or]
            exact ⟨not_mem_take_token _ k hk2, hw2⟩
      · rw [row_close_skip c rest row h1 h2 h3] at h
        obtain ⟨w, hw1, hw2⟩ := ih rest hlen row h
        refine ⟨c :: w, by simp [hw1], ?_⟩
        simp only [List.mem_cons, not_or]
        exact ⟨fun e => h2 e.symm, hw2⟩

theorem takeWhile_append_stop (p : Char → Bool) (u b : List Char) (c : Char) (hc : p c = false) :
    (u ++ c :: b).takeWhile p = u.takeWhile p := by
  induction u with
  | nil => simp [List.takeWhile_cons, hc]
  | cons x u ih =>
    simp only [List.cons_append, List.takeWhile_cons]
    split
    · rw [ih]
    · rfl

/-- The rest of a row is read from the text before its closing bracket alone: what
follows the bracket is handed back untouched. -/
theorem row_close_local (n : Nat) (w : List Char) (hn : w.length ≤ n) (hw : ']' ∉ w)
    (t : List Char) (row : List Double) :
    row_close (w ++ ']' :: t) row =
      match row_close (w ++ [']']) row with
      | .error e => .error e
      | .ok (_, r) => .ok (t, r) := by
  induction n generalizing w row with
  | zero =>
    have : w = [] := List.eq_nil_of_length_eq_zero (by omega)
    subst this
    simp [row_close_bracket]
  | succ n ih =>
    cases w with
    | nil => simp [row_close_bracket]
    | cons c w =>
      have hlen : w.length ≤ n := by simpa using hn
      simp only [List.mem_cons, not_or] at hw
      have hb : ¬ (']' : Char) = c := hw.1
      rcases char_cases c with hc | hc | hc | ⟨h1, h2, h3⟩
      · exact absurd hc.symm hb
      · simp only [List.cons_append]
        rw [row_close_separator c _ row hc, row_close_separator c _ row hc]
        exact ih w hlen hw.2 row
      · have hnb : is_numeric_char ']' = false := by decide
        have ht1 : ((c :: w) ++ ']' :: t).takeWhile is_numeric_char
            = (c :: w).takeWhile is_numeric_char := takeWhile_append_stop _ _ _ _ hnb
        have ht2 : ((c :: w) ++ [']']).takeWhile is_numeric_char
            = (c :: w).takeWhile is_numeric_char := takeWhile_append_stop _ _ _ _ hnb
        cases hs : stod ((c :: w).takeWhile is_numeric_char) with
        | error e =>
          have e1 := row_close_number_error c (w ++ ']' :: t) row e hc (by
            rw [← List.cons_append, ht1]; exact hs)
          have e2 := row_close_number_error c (w ++ [']']) row e hc (by
            rw [← List.cons_append, ht2]; exact hs)
          simp only [List.cons_append]
          rw [e1, e2]
        | ok vk =>
          obtain ⟨v, k⟩ := vk
          obtain ⟨hk1, hk2⟩ := stod_end_le _ v k hs
          have hk3 : k ≤ (c :: w).length :=
            Nat.le_trans hk2 (List.takeWhile_sublist _).length_le
          have e1 := row_close_number c (w ++ ']' :: t) row v k hc (by
            rw [← List.cons_append, ht1]; exact hs)
          have e2 := row_close_number c (w ++ [']']) row v k hc (by
            rw [← List.cons_append, ht2]; exact hs)
          simp only [List.cons_append]
          rw [e1, e2]
          rw [← List.cons_append, ← List.cons_append, List.drop_append_of_le_length hk3,
            List.drop_append_of_le_length hk3]
          apply ih
          · rw [List.length_drop]
            simp only [List.length_cons] at hn ⊢
            omega
          · intro hm
            have := List.mem_of_mem_drop hm
            simp only [List.mem_cons] at this
            rcases this with h | h
            · exact hb h
            · exact hw.2 h
      · simp only [List.cons_append]
        rw [row_close_skip c _ row h1 h2 h3, row_close_skip c _ row h1 h2 h3]
        exact ih w hlen hw.2 row

/-! ## Texts without an opening bracket, ignored prefixes, unterminated rows -/

theorem load_matrix_no_bracket (content : List Char) (h : '[' ∉ content) :
    load_matrix content = .error .no_opening_bracket := by
  induction content with
  | nil => exact load_matrix_nil
  | cons c rest ih =>
    simp only [List.mem_cons, not_or] at h
    rw [load_matrix_skip c rest (fun e => h.1 e.symm)]
    exact ih h.2

theorem load_matrix_append_left (p t : List Char) (h : '[' ∉ p) :
    load_matrix (p ++ t) = load_matrix t := by
  induction p with
  | nil => rfl
  | cons c rest ih =>
    simp only [List.mem_cons, not_or] at h
    rw [List.cons_append, load_matrix_skip c _ (fun e => h.1 e.symm)]
    exact ih h.2

theorem rows_from_error (text : List Char) (m : Matrix) (e : ScanError)
    (h : rows_from text m = .error e) : e = .conversion ∨ e = .unterminated_row :=
  scan_rows_error text _ 0 m e (by omega) h

theorem rows_from_unterminated (n : Nat) (t : List Char) (hn : t.length ≤ n) (b c : List Char)
    (ht : t = b ++ '[' :: c) (hc : ']' ∉ c) (m : Matrix) :
    rows_from t m = .error .conversion ∨ rows_from t m = .error .unterminated_row := by
  induction n generalizing t b m with
  | zero =>
    have : t = [] := List.eq_nil_of_length_eq_zero (by omega)
    subst this
    cases b <;> simp at ht
  | succ n ih =>
    cases t with
    | nil => cases b <;> simp at ht
    | cons x t1 =>
      have hlen : t1.length ≤ n := by simpa using hn
      by_cases hx : x = '['
      · subst hx
        rw [rows_from_open]
        cases hr : row_close t1 [] with
        | error e =>
          simp only
          rcases row_close_error t1 [] e hr with h | h
          · left; rw [h]
          · right; rw [h]
        | ok pr =>
          obtain ⟨rest1, row⟩ := pr
          simp only
          obtain ⟨w, hw1, hw2⟩ := row_close_ok t1.length t1 (Nat.le_refl _) [] rest1 row hr
          cases b with
          | nil =>
            simp only [List.nil_append, List.cons.injEq, true_and] at ht
            exfalso
            apply hc
            rw [← ht, hw1]
            simp
          | cons y b1 =>
            simp only [List.cons_append, List.cons.injEq] at ht
            have h2 : w ++ ']' :: rest1 = b1 ++ '[' :: c := by rw [← hw1, ht.2]
            rcases List.append_eq_append_iff.mp h2 with ⟨a1, ha1, ha2⟩ | ⟨c1, hc1, hc2⟩
            · cases a1 with
              | nil =>
                simp at ha2
              | cons z a2 =>
                simp only [List.cons_append, List.cons.injEq] at ha2
                apply ih rest1 _ a2 ha2.2
                rw [hw1] at hlen
                simp at hlen
                omega
            · exfalso
              cases c1 with
              | nil =>
                simp at hc2
              | cons z c2 =>
                simp only [List.cons_append, List.cons.injEq] at hc2
                apply hc
                rw [hc2.2]
                simp
      · rw [rows_from_skip x t1 _ hx]
        cases b with
        | nil =>
          simp only [List.nil_append, List.cons.injEq] at ht
          exact absurd ht.1 hx
        | cons y b1 =>
          simp only [List.cons_append, List.cons.injEq] at ht
          exact ih t1 hlen b1 ht.2 m

theorem load_matrix_unterminated (a b c : List Char) (hc : ']' ∉ c) :
    load_matrix (a ++ '[' :: (b ++ '[' :: c)) = .error .conversion ∨
      load_matrix (a ++ '[' :: (b ++ '[' :: c)) = .error .unterminated_row := by
  induction a with
  | nil =>
    rw [List.nil_append, load_matrix_open]
    exact rows_from_unterminated _ _ (Nat.le_refl _) b c rfl hc []
  | cons x a ih =>
    by_cases hx : x = '['
    · subst hx
      rw [List.cons_append, load_matrix_open]
      exact rows_from_unterminated _ _ (Nat.le_refl _) (a ++ '[' :: b) c (by simp) hc []
    · rw [List.cons_append, load_matrix_skip x _ hx]
      exact ih

/-- The bound on the passes of the loops is never reached by `load_matrix`. -/
theorem load_matrix_never_exhausts (content : List Char) :
    load_matrix content ≠ .error .fuel_exhausted := by
  intro h
  unfold load_matrix at h
  cases hf : find content '[' 0 with
  | none => rw [hf] at h; cases h
  | some p =>
    rw [hf] at h
    simp only at h
    rcases scan_rows_error content _ (p + 1) [] _ (by omega) h with h1 | h1 <;> cases h1

/-! ## Rows without a value -/

theorem rows_from_nonempty (n : Nat) (t : List Char) (hn : t.length ≤ n) (m M : Matrix)
    (hm : ∀ row ∈ m, row ≠ []) (h : rows_from t m = .ok M) : ∀ row ∈ M, row ≠ [] := by
  induction n generalizing t m with
  | zero =>
    have : t = [] := List.eq_nil_of_length_eq_zero (by omega)
    subst this
    rw [rows_from_nil] at h
    simp only [Except.ok.injEq] at h
    rw [← h]
    exact hm
  | succ n ih =>
    cases t with
    | nil =>
      rw [rows_from_nil] at h
      simp only [Except.ok.injEq] at h
      rw [← h]
      exact hm
    | cons x t1 =>
      have hlen : t1.length ≤ n := by simpa using hn
      by_cases hx : x = '['
      · subst hx
        rw [rows_from_open] at h
        cases hr : row_close t1 [] with
        | error e => rw [hr] at h; cases h
        | ok pr =>
          obtain ⟨rest1, row⟩ := pr
          rw [hr] at h
          simp only at h
          obtain ⟨w, hw1, _⟩ := row_close_ok t1.length t1 (Nat.le_refl _) [] rest1 row hr
          have hl1 : rest1.length ≤ n := by
            rw [hw1] at hlen
            simp at hlen
            omega
          apply ih rest1 hl1 _ _ h
          intro r hr1
          by_cases hrow : row.length > 0
          · rw [if_pos hrow] at hr1
            rcases List.mem_append.mp hr1 with h1 | h1
            · exact hm r h1
            · simp only [List.mem_singleton] at h1
              rw [h1]
              exact List.ne_nil_of_length_pos hrow
          · rw [if_neg hrow] at hr1
            exact hm r hr1
      · rw [rows_from_skip x t1 _ hx] at h
        exact ih t1 hlen m hm h

theorem rows_from_scanned (n : Nat) (t : List Char) (hn : t.length ≤ n) (m : Matrix) :
    rows_from t m =
      match scanned_rows n t with
      | .error e => .error e
      | .ok rows => .ok (m ++ rows.filter (fun row => decide (row.length > 0))) := by
  induction n generalizing t m with
  | zero =>
    have : t = [] := List.eq_nil_of_length_eq_zero (by omega)
    subst this
    simp [rows_from_nil, scanned_rows]
  | succ n ih =>
    cases t with
    | nil => simp [rows_from_nil, scanned_rows]
    | cons x t1 =>
      have hlen : t1.length ≤ n := by simpa using hn
      by_cases hx : x = '['
      · subst hx
        rw [rows_from_open]
        simp only [scanned_rows, if_true]
        cases hr : row_close t1 [] with
        | error e => rfl
        | ok pr =>
          obtain ⟨rest1, row⟩ := pr
          simp only
          obtain ⟨w, hw1, _⟩ := row_close_ok t1.length t1 (Nat.le_refl _) [] rest1 row hr
          have hl1 : rest1.length ≤ n := by
            rw [hw1] at hlen
            simp at hlen
            omega
          rw [ih rest1 hl1]
          cases scanned_rows n rest1 with
          | error e => rfl
          | ok rows =>
            simp only
            by_cases hrow : row.length > 0
            · simp [hrow, List.filter_cons]
            · simp [hrow, List.filter_cons]
      · rw [rows_from_skip x t1 _ hx]
        simp only [scanned_rows, hx, if_false]
        exact ih t1 hlen m

theorem load_matrix_dropWhile (content : List Char) :
    load_matrix content =
      match content.dropWhile (fun c => c != '[') with
      | [] => .error .no_opening_bracket
      | _ :: rest => rows_from rest [] := by
  induction content with
  | nil => simp [load_matrix_nil]
  | cons c rest ih =>
    by_cases hc : c = '['
    · subst hc
      rw [load_matrix_open]
      simp [List.dropWhile_cons]
    · rw [load_matrix_skip c rest hc, ih]
      simp [List.dropWhile_cons, hc]

theorem load_matrix_all_rows (content : List Char) :
    load_matrix content =
      match all_rows content with
      | .error e => .error e
      | .ok rows => .ok (rows.filter (fun row => decide (row.length > 0))) := by
  rw [load_matrix_dropWhile]
  unfold all_rows
  cases content.dropWhile (fun c => c != '[') with
  | nil => rfl
  | cons c rest =>
    simp only
    rw [rows_from_scanned rest.length rest (Nat.le_refl _) []]
    cases scanned_rows rest.length rest with
    | error e => rfl
    | ok rows => simp

/-! ## Characters skipped inside a row -/

theorem state_after_in_row (w : List Char) (hw : ']' ∉ w) :
    state_after .in_row w = .in_row := by
  induction w with
  | nil => rfl
  | cons x w ih =>
    simp only [List.mem_cons, not_or] at hw
    have hx : ¬ x = ']' := fun e => hw.1 e.symm
    simp only [state_after, List.foldl_cons, scan_step, hx, if_false]
    exact ih hw.2

theorem row_close_replace (n : Nat) (u : List Char) (hn : u.length ≤ n) (hu : ']' ∉ u)
    (c : Char) (b : List Char) (row : List Double)
    (h1 : is_separator c = false) (h2 : c ≠ ']') (h3 : is_numeric_char c = false) :
    row_close (u ++ c :: b) row = row_close (u ++ ' ' :: b) row := by
  have hsp : is_separator ' ' = true := by decide
  have hnsp : is_numeric_char ' ' = false := by decide
  induction n generalizing u row with
  | zero =>
    have : u = [] := List.eq_nil_of_length_eq_zero (by omega)
    subst this
    simp only [List.nil_append]
    rw [row_close_skip c b row h1 h2 h3, row_close_separator ' ' b row hsp]
  | succ n ih =>
    cases u with
    | nil =>
      simp only [List.nil_append]
      rw [row_close_skip c b row h1 h2 h3, row_close_separator ' ' b row hsp]
    | cons x u =>
      have hlen : u.length ≤ n := by simpa using hn
      simp only [List.mem_cons, not_or] at hu
      have hb : ¬ (']' : Char) = x := hu.1
      rcases char_cases x with hc | hc | hc | ⟨g1, g2, g3⟩
      · exact absurd hc.symm hb
      · simp only [List.cons_append]
        rw [row_close_separator x _ row hc, row_close_separator x _ row hc]
        exact ih u hlen hu.2 row
      · have ht1 : ((x :: u) ++ c :: b).takeWhile is_numeric_char
            = (x :: u).takeWhile is_numeric_char := takeWhile_append_stop _ _ _ _ h3
        have ht2 : ((x :: u) ++ ' ' :: b).takeWhile is_numeric_char
            = (x :: u).takeWhile is_numeric_char := takeWhile_append_stop _ _ _ _ hnsp
        cases hs : stod ((x :: u).takeWhile is_numeric_char) with
        | error e =>
          have e1 := row_close_number_error x (u ++ c :: b) row e hc (by
            rw [← List.cons_append, ht1]; exact hs)
          have e2 := row_close_number_error x (u ++ ' ' :: b) row e hc (by
            rw [← List.cons_append, ht2]; exact hs)
          simp only [List.cons_append]
          rw [e1, e2]
        | ok vk =>
          obtain ⟨v, k⟩ := vk
          obtain ⟨hk1, hk2⟩ := stod_end_le _ v k hs
          have hk3 : k ≤ (x :: u).length :=
            Nat.le_trans hk2 (List.takeWhile_sublist _).length_le
          have e1 := row_close_number x (u ++ c :: b) row v k hc (by
            rw [← List.cons_append, ht1]; exact hs)
          have e2 := row_close_number x (u ++ ' ' :: b) row v k hc (by
            rw [← List.cons_append, ht2]; exact hs)
          simp only [List.cons_append]
          rw [e1, e2]
          rw [← List.cons_append, ← List.cons_append, List.drop_append_of_le_length hk3,
            List.drop_append_of_le_length hk3]
          apply ih
          · rw [List.length_drop]
            simp only [List.length_cons] at hn ⊢
            omega
          · intro hm
            have := List.mem_of_mem_drop hm
            simp only [List.mem_cons] at this
            rcases this with h | h
            · exact hb h
            · exact hu.2 h
      · simp only [List.cons_append]
        rw [row_close_skip x _ row g1 g2 g3, row_close_skip x _ row g1 g2 g3]
        exact ih u hlen hu.2 row

theorem first_bracket (u : List Char) :
    ']' ∉ u ∨ ∃ w rest, u = w ++ ']' :: rest ∧ ']' ∉ w := by
  cases h : find_loop ']' u 0 with
  | none => exact Or.inl (find_loop_none _ _ _ h)
  | some i =>
    obtain ⟨w, rest, h1, h2, _⟩ := find_loop_some _ _ _ _ h
    exact Or.inr ⟨w, rest, h1, h2⟩

theorem rows_from_replace (n : Nat) (u : List Char) (hn : u.length ≤ n)
    (hu : state_after .between u = .in_row) (c : Char) (b : List Char) (m : Matrix)
    (h1 : is_separator c = false) (h2 : c ≠ ']') (h3 : is_numeric_char c = false) :
    rows_from (u ++ c :: b) m = rows_from (u ++ ' ' :: b) m := by
  induction n generalizing u m with
  | zero =>
    have : u = [] := List.eq_nil_of_length_eq_zero (by omega)
    subst this
    simp [state_after] at hu
  | succ n ih =>
    cases u with
    | nil => simp [state_after] at hu
    | cons x u =>
      have hlen : u.length ≤ n := by simpa using hn
      by_cases hx : x = '['
      · subst hx
        have hu1 : state_after .in_row u = .in_row := by
          simpa [state_after, scan_step] using hu
        simp only [List.cons_append]
        rw [rows_from_open, rows_from_open]
        rcases first_bracket u with hnb | ⟨w, rest, hw1, hw2⟩
        · rw [row_close_replace u.length u (Nat.le_refl _) hnb c b [] h1 h2 h3]
        · subst hw1
          have hst : state_after .between rest = .in_row := by
            have := hu1
            simp only [state_after, List.foldl_append, List.foldl_cons] at this
            have hw3 := state_after_in_row w hw2
            simp only [state_after] at hw3
            rw [hw3] at this
            simpa [scan_step, state_after] using this
          have hl : rest.length ≤ n := by
            simp at hlen
            omega
          rw [List.append_assoc, List.append_assoc, List.cons_append, List.cons_append,
            row_close_local w.length w (Nat.le_refl _) hw2 (rest ++ c :: b) [],
            row_close_local w.length w (Nat.le_refl _) hw2 (rest ++ ' ' :: b) []]
          cases row_close (w ++ [']']) [] with
          | error e => rfl
          | ok pr =>
            obtain ⟨_, r⟩ := pr
            simp only
            exact ih rest hl hst _
      · have hu1 : state_after .between u = .in_row := by
          simpa [state_after, scan_step, hx] using hu
        simp only [List.cons_append]
        rw [rows_from_skip x _ m hx, rows_from_skip x _ m hx]
        exact ih u hlen hu1 m

theorem load_matrix_replace (pre : List Char) (hp : scan_state pre = .in_row) (c : Char)
    (b : List Char) (h1 : is_separator c = false) (h2 : c ≠ ']')
    (h3 : is_numeric_char c = false) :
    load_matrix (pre ++ c :: b) = load_matrix (pre ++ ' ' :: b) := by
  unfold scan_state at hp
  induction pre with
  | nil => simp [state_after] at hp
  | cons x pre ih =>
    by_cases hx : x = '['
    · subst hx
      have hu1 : state_after .between pre = .in_row := by
        simpa [state_after, scan_step] using hp
      simp only [List.cons_append]
      rw [load_matrix_open, load_matrix_open]
      exact rows_from_replace pre.length pre (Nat.le_refl _) hu1 c b [] h1 h2 h3
    · have hu1 : state_after .before pre = .in_row := by
        simpa [state_after, scan_step, hx] using hp
      simp only [List.cons_append]
      rw [load_matrix_skip x _ hx, load_matrix_skip x _ hx]
      exact ih hu1

/-! ## Operands of different dimensions -/

theorem dot_top_left (n : Nat) (A B : Matrix) (i j : Nat) (hj : j < n) :
    dot A (top_left n B) n i j = dot A B n i j := by
  unfold dot
  apply List.foldl_ext
  intro s k hk
  have hk' : k < n := List.mem_range.mp hk
  congr 2
  simp only [top_left, List.getD_eq_getElem?_getD, List.getElem?_map, List.getElem?_take, hk',
    if_true]
  cases B[k]? with
  | none => simp
  | some row => simp [List.getElem?_take, hj]

theorem multiply_top_left (n m : Nat) (A B : Matrix) (hA : is_square n A) (hB : is_square m B)
    (hnm : n < m) :
    multiply_matrices A B
        = some ((List.range n).map fun i => (List.range n).map fun j => dot A B n i j) ∧
      multiply_matrices A (top_left n B) = multiply_matrices A B := by
  have h1 : n ≤ B.length := by rw [hB.1]; omega
  have h2 : ∀ row ∈ B, n ≤ row.length := fun row hr => by rw [hB.2 row hr]; omega
  have h3 : n ≤ (top_left n B).length := by
    simp [top_left, List.length_take]; omega
  have h4 : ∀ row ∈ top_left n B, n ≤ row.length := by
    intro row hr
    simp only [top_left, List.mem_map] at hr
    obtain ⟨r0, hr0, rfl⟩ := hr
    have := h2 r0 (List.mem_of_mem_take hr0)
    simp [List.length_take]; omega
  refine ⟨multiply_matrices_eq n A B hA h1 h2, ?_⟩
  rw [multiply_matrices_eq n A B hA h1 h2, multiply_matrices_eq n A _ hA h3 h4]
  congr 1
  apply List.map_congr_left
  intro i _
  apply List.map_congr_left
  intro j hj
  exact dot_top_left n A B i j (List.mem_range.mp hj)

/-! ## Texts written in the bracket format -/

theorem row_close_separators (sep t : List Char) (acc : List Double)
    (hs : sep.all is_separator = true) : row_close (sep ++ t) acc = row_close t acc := by
  induction sep with
  | nil => rfl
  | cons c sep ih =>
    simp only [List.all_cons, Bool.and_eq_true] at hs
    rw [List.cons_append, row_close_separator c _ acc hs.1]
    exact ih hs.2

theorem rows_from_separators (sep t : List Char) (m : Matrix)
    (hs : sep.all is_separator = true) : rows_from (sep ++ t) m = rows_from t m := by
  induction sep with
  | nil => rfl
  | cons c sep ih =>
    simp only [List.all_cons, Bool.and_eq_true] at hs
    have hc : c ≠ '[' := by
      rintro rfl
      have := hs.1
      revert this
      decide
    rw [List.cons_append, rows_from_skip c _ m hc]
    exact ih hs.2

theorem row_close_literal (lit t : List Char) (v : Double) (acc : List Double)
    (hl : is_literal lit v) (ht : ∀ c ∈ t.head?, is_numeric_char c = false) :
    row_close (lit ++ t) acc = row_close t (acc ++ [v]) := by
  obtain ⟨hall, hst⟩ := hl
  have hpos := (stod_end_le lit v lit.length hst).1
  have htok : (lit ++ t).takeWhile is_numeric_char = lit := by
    have h1 : lit.takeWhile is_numeric_char = lit :=
      List.takeWhile_eq_self_iff.mpr (fun x hx => List.all_eq_true.mp hall x hx)
    cases t with
    | nil => simpa using h1
    | cons d t =>
      rw [takeWhile_append_stop _ _ _ _ (ht d (by simp)), h1]
  cases lit with
  | nil => simp at hpos
  | cons c lit =>
    have hc : is_numeric_char c = true := List.all_eq_true.mp hall c (List.mem_cons_self _ _)
    rw [List.cons_append] at htok ⊢
    rw [row_close_number c (lit ++ t) acc v (c :: lit).length hc (by rw [htok]; exact hst)]
    rw [← List.cons_append, List.drop_left]

theorem row_close_cells (csep : List Char) (hsep : is_separator_run csep)
    (row : List (List Char × Double)) (hrow : ∀ cell ∈ row, is_literal cell.1 cell.2)
    (rest : List Char) (acc : List Double) :
    row_close (join_with csep (row.map Prod.fst) ++ ']' :: rest) acc
      = .ok (rest, acc ++ row.map Prod.snd) := by
  have hnb : is_numeric_char ']' = false := by decide
  induction row generalizing acc with
  | nil => simp [join_with, row_close_bracket]
  | cons a row ih =>
    have ha := hrow a (List.mem_cons_self _ _)
    have hrest : ∀ cell ∈ row, is_literal cell.1 cell.2 :=
      fun cell hc => hrow cell (List.mem_cons_of_mem _ hc)
    cases row with
    | nil =>
      simp only [List.map_cons, List.map_nil, join_with]
      rw [row_close_literal a.1 _ a.2 acc ha (by simp [hnb]), row_close_bracket]
    | cons b row =>
      obtain ⟨hne, hall⟩ := hsep
      have hhead : ∀ c ∈ (csep ++ (join_with csep ((b :: row).map Prod.fst) ++ ']' :: rest)).head?,
          is_numeric_char c = false := by
        intro c hc
        cases csep with
        | nil => exact absurd rfl hne
        | cons d csep =>
          simp only [List.cons_append, List.head?_cons, Option.mem_def, Option.some.injEq] at hc
          subst hc
          simp only [List.all_cons, Bool.and_eq_true] at hall
          by_contra hcon
          simp only [Bool.not_eq_false] at hcon
          have := is_numeric_not_separator d hcon
          rw [hall.1] at this
          cases this
      have hj : join_with csep ((a :: b :: row).map Prod.fst)
          = a.1 ++ csep ++ join_with csep ((b :: row).map Prod.fst) := by
        simp [join_with]
      rw [hj, List.append_assoc, List.append_assoc,
        row_close_literal a.1 _ a.2 acc ha hhead, row_close_separators csep _ _ hall,
        ih hrest (acc ++ [a.2])]
      simp

theorem rows_from_written (csep rsep : List Char) (hsep : is_separator_run csep)
    (hr : rsep.all is_separator = true) (cells : List (List (List Char × Double)))
    (hlit : all_literals cells) (hne : ∀ row ∈ cells, row ≠ []) (tail : List Char) (m : Matrix) :
    rows_from (join_with rsep ((cells.map (fun row => row.map Prod.fst)).map (write_row csep))
        ++ tail) m
      = rows_from tail (m ++ cells.map (fun row => row.map Prod.snd)) := by
  induction cells generalizing m with
  | nil => simp [join_with]
  | cons r cells ih =>
    have hr1 := hlit r (List.mem_cons_self _ _)
    have hn1 := hne r (List.mem_cons_self _ _)
    have hlit' : all_literals cells := fun row h => hlit row (List.mem_cons_of_mem _ h)
    have hne' : ∀ row ∈ cells, row ≠ [] := fun row h => hne row (List.mem_cons_of_mem _ h)
    have hlen : (r.map Prod.snd).length > 0 := by
      rw [List.length_map]
      exact List.length_pos.mpr hn1
    cases cells with
    | nil =>
      simp only [List.map_cons, List.map_nil, join_with, write_row, List.cons_append,
        List.append_assoc, List.singleton_append, List.nil_append]
      rw [rows_from_open, row_close_cells csep hsep r hr1 tail []]
      simp only [List.nil_append]
      rw [if_pos hlen]
    | cons r2 cells =>
      have hj : join_with rsep (((r :: r2 :: cells).map (fun row => row.map Prod.fst)).map
            (write_row csep))
          = write_row csep (r.map Prod.fst) ++ rsep ++ join_with rsep
            (((r2 :: cells).map (fun row => row.map Prod.fst)).map (write_row csep)) := by
        simp [join_with]
      rw [hj]
      simp only [write_row, List.cons_append, List.append_assoc, List.singleton_append]
      rw [rows_from_open, row_close_cells csep hsep r hr1 _ []]
      simp only [List.nil_append]
      rw [if_pos hlen, rows_from_separators rsep _ _ hr]
      have := ih hlit' hne' (m ++ [r.map Prod.snd])
      simp only [List.append_assoc, List.singleton_append] at this
      rw [this]
      simp

theorem load_matrix_written (csep rsep : List Char) (hsep : is_separator_run csep)
    (hr : rsep.all is_separator = true) (cells : List (List (List Char × Double)))
    (hlit : all_literals cells) (hne : ∀ row ∈ cells, row ≠ []) :
    load_matrix (write_matrix csep rsep (cells.map (fun row => row.map Prod.fst)))
      = .ok (cells.map (fun row => row.map Prod.snd)) := by
  unfold write_matrix
  rw [List.cons_append, load_matrix_open, rows_from_written csep rsep hsep hr cells hlit hne [']'] [],
    rows_from_skip ']' [] _ (by decide), rows_from_nil]
  simp

/-! ## Lemmas on the trial harness -/

/-- The durations of `k` passes that start when `t` readings have been made. -/
theorem measure_loop_defined (A B : Matrix) (C : Matrix) (hC : multiply_matrices A B = some C)
    (clock : Nat → Int) (k t : Nat) (times : List Double) :
    measure_loop A B clock k t times
      = some (times ++ (List.range k).map
          (fun i => elapsed_seconds (clock (t + 2 * i + 1) - clock (t + 2 * i))), t + 2 * k) := by
  induction k generalizing t times with
  | zero => simp [measure_loop]
  | succ k ih =>
    simp only [measure_loop, hC]
    rw [ih (t + 2)]
    have h1 : t + 2 + 2 * k = t + 2 * (k + 1) := by omega
    rw [h1, List.range_succ_eq_map]
    simp only [List.map_cons, List.map_map, List.append_assoc, List.singleton_append,
      Nat.mul_zero, Nat.add_zero]
    congr 4
    apply List.map_congr_left
    intro i _
    simp only [Function.comp_apply, Nat.succ_eq_add_one]
    have h2 : t + 2 + 2 * i = t + 2 * (i + 1) := by omega
    rw [h2]

theorem measure_loop_undefined (A B : Matrix) (hC : multiply_matrices A B = none)
    (clock : Nat → Int) (k t : Nat) (times : List Double) :
    measure_loop A B clock (k + 1) t times = none := by
  simp [measure_loop, hC]

theorem measure_defined (A B : Matrix) (C : Matrix) (hC : multiply_matrices A B = some C)
    (iterations : Int) (clock : Nat → Int) (t : Nat) :
    measure_multiplication A B iterations clock t
      = some (accumulate ((List.range iterations.toNat).map
            (fun i => elapsed_seconds (clock (t + 2 * i + 1) - clock (t + 2 * i))))
          / Double.of_int ((List.range iterations.toNat).map
            (fun i => elapsed_seconds (clock (t + 2 * i + 1) - clock (t + 2 * i)))).length,
        (List.range iterations.toNat).map
          (fun i => elapsed_seconds (clock (t + 2 * i + 1) - clock (t + 2 * i)))) := by
  unfold measure_multiplication
  rw [measure_loop_defined A B C hC]
  simp

theorem measure_no_pass (A B : Matrix) (iterations : Int) (h : iterations ≤ 0)
    (clock : Nat → Int) (t : Nat) :
    measure_multiplication A B iterations clock t = some (Double.nan, []) := by
  have h0 : iterations.toNat = 0 := by omega
  unfold measure_multiplication
  rw [h0]
  simp only [measure_loop]
  decide

theorem measure_average (A B : Matrix) (iterations : Int) (clock : Nat → Int) (t : Nat)
    (avg : Double) (times : List Double)
    (h : measure_multiplication A B iterations clock t = some (avg, times)) :
    avg = accumulate times / Double.of_int times.length ∧ times.length = iterations.toNat := by
  cases hC : multiply_matrices A B with
  | none =>
    unfold measure_multiplication at h
    cases hk : iterations.toNat with
    | zero =>
      rw [hk] at h
      simp only [measure_loop, Option.some.injEq, Prod.mk.injEq] at h
      obtain ⟨h1, h2⟩ := h
      subst h2
      exact ⟨h1.symm, rfl⟩
    | succ k =>
      rw [hk, measure_loop_undefined A B hC] at h
      cases h
  | some C =>
    rw [measure_defined A B C hC] at h
    simp only [Option.some.injEq, Prod.mk.injEq] at h
    obtain ⟨h1, h2⟩ := h
    subst h2
    exact ⟨h1.symm, by simp⟩

/-! ## Lemmas on the results logger -/

theorem digit_char_field (d : Nat) (h : d < 10) : is_field_char (digit_char d) = true := by
  interval_cases d <;> decide

theorem nat_digits_loop_field (fuel n : Nat) (acc : List Char)
    (h : acc.all is_field_char = true) :
    (nat_digits_loop fuel n acc).all is_field_char = true := by
  induction fuel generalizing n acc with
  | zero => exact h
  | succ fuel ih =>
    unfold nat_digits_loop
    split
    · rename_i hn
      simp only [List.all_cons, Bool.and_eq_true]
      exact ⟨digit_char_field n hn, h⟩
    · apply ih
      simp only [List.all_cons, Bool.and_eq_true]
      exact ⟨digit_char_field _ (Nat.mod_lt _ (by decide)), h⟩

theorem nat_digits_loop_ne_nil (fuel n : Nat) (acc : List Char) (h : acc ≠ []) :
    nat_digits_loop fuel n acc ≠ [] := by
  induction fuel generalizing n acc with
  | zero => exact h
  | succ fuel ih =>
    unfold nat_digits_loop
    split
    · simp
    · exact ih _ _ (by simp)

theorem nat_digits_field (n : Nat) : (nat_digits n).all is_field_char = true :=
  nat_digits_loop_field _ _ _ (by simp)

theorem nat_digits_ne_nil (n : Nat) : nat_digits n ≠ [] := by
  unfold nat_digits nat_digits_loop
  split
  · simp
  · exact nat_digits_loop_ne_nil _ _ _ (by simp)

theorem format_int_field (z : Int) : (format_int z).all is_field_char = true := by
  unfold format_int
  split
  · simp only [List.all_cons, Bool.and_eq_true]
    exact ⟨by decide, nat_digits_field _⟩
  · exact nat_digits_field _

theorem six_digits_field (n : Nat) : (six_digits n).all is_field_char = true := by
  have h : ∀ k, is_field_char (digit_char (k % 10)) = true :=
    fun k => digit_char_field _ (Nat.mod_lt _ (by decide))
  simp [six_digits, h]

theorem format_fixed_field (x : Double) : (format_fixed x).all is_field_char = true := by
  cases x with
  | finite neg m e =>
    simp only [format_fixed, List.all_append, List.all_cons, Bool.and_eq_true]
    refine ⟨⟨?_, nat_digits_field _⟩, by decide, six_digits_field _⟩
    cases neg <;> decide
  | inf neg => cases neg <;> decide
  | nan => decide

theorem format_fixed_ne_nil (x : Double) : format_fixed x ≠ [] := by
  cases x with
  | finite neg m e => simp [format_fixed]
  | inf neg => cases neg <;> simp [format_fixed]
  | nan => simp [format_fixed]

theorem field_not_mem (l : List Char) (h : l.all is_field_char = true) :
    ',' ∉ l ∧ ' ' ∉ l ∧ '\n' ∉ l := by
  have h1 := List.all_eq_true.mp h
  refine ⟨fun hm => ?_, fun hm => ?_, fun hm => ?_⟩
  · have := h1 _ hm; revert this; decide
  · have := h1 _ hm; revert this; decide
  · have := h1 _ hm; revert this; decide

theorem write_times_loop_eq (pre l : List Double) (out : List Char) :
    write_times_loop (pre ++ l) l.length pre.length out
      = out ++ join_with [' '] (l.map format_fixed) := by
  induction l generalizing pre out with
  | nil => simp [write_times_loop, join_with]
  | cons x l ih =>
    have hget : (pre ++ x :: l).getD pre.length Double.zero = x := by
      rw [List.getD_eq_getElem?_getD, List.getElem?_append_right (Nat.le_refl _)]
      simp
    have hpre : pre ++ x :: l = (pre ++ [x]) ++ l := by simp
    simp only [List.length_cons, write_times_loop, hget]
    have hlen : (pre ++ [x]).length = pre.length + 1 := by simp
    rw [hpre, ← hlen, ih (pre ++ [x])]
    cases l with
    | nil => simp [join_with]
    | cons y l =>
      have hc : pre.length < (pre ++ [x] ++ y :: l).length - 1 := by
        simp
      simp [join_with, hc]

/-- The durations are written in order with one space between two of them. -/
theorem write_times_eq (times : List Double) :
    write_times times = join_with [' '] (times.map format_fixed) := by
  have := write_times_loop_eq [] times []
  simpa [write_times] using this

theorem join_with_mem (sep : List Char) (parts : List (List Char)) (c : Char)
    (h : c ∈ join_with sep parts) : c ∈ sep ∨ ∃ part ∈ parts, c ∈ part := by
  induction parts with
  | nil => simp [join_with] at h
  | cons p parts ih =>
    cases parts with
    | nil =>
      simp only [join_with] at h
      exact Or.inr ⟨p, by simp, h⟩
    | cons q parts =>
      simp only [join_with, List.mem_append] at h
      rcases h with (h | h) | h
      · exact Or.inr ⟨p, by simp, h⟩
      · exact Or.inl h
      · rcases ih h with h1 | ⟨part, hp, hc⟩
        · exact Or.inl h1
        · exact Or.inr ⟨part, List.mem_cons_of_mem _ hp, hc⟩

theorem join_with_head (sep : List Char) (p : List Char) (parts : List (List Char))
    (hp : p ≠ []) : (join_with sep (p :: parts)).head? = p.head? := by
  cases p with
  | nil => exact absurd rfl hp
  | cons c p =>
    cases parts with
    | nil => simp [join_with]
    | cons q parts => simp [join_with]

theorem join_with_getLast (sep : List Char) (parts : List (List Char)) (hne : parts ≠ [])
    (hp : ∀ part ∈ parts, part ≠ []) :
    ∃ part ∈ parts, (join_with sep parts).getLast? = part.getLast? := by
  induction parts with
  | nil => exact absurd rfl hne
  | cons p parts ih =>
    cases parts with
    | nil => exact ⟨p, by simp, by simp [join_with]⟩
    | cons q parts =>
      obtain ⟨part, hm, hl⟩ := ih (by simp) (fun part h => hp part (List.mem_cons_of_mem _ h))
      refine ⟨part, List.mem_cons_of_mem _ hm, ?_⟩
      have hne2 : join_with sep (q :: parts) ≠ [] := by
        intro he
        have hq := hp q (by simp)
        have hh := join_with_head sep q parts hq
        rw [he] at hh
        cases q with
        | nil => exact hq rfl
        | cons c q => simp at hh
      have hj : join_with sep (p :: q :: parts) = (p ++ sep) ++ join_with sep (q :: parts) := by
        simp [join_with]
      rw [hj, List.getLast?_append_of_ne_nil _ hne2]
      exact hl

theorem write_times_not_mem (times : List Double) :
    ',' ∉ write_times times ∧ '\n' ∉ write_times times := by
  rw [write_times_eq]
  constructor
  · intro h
    rcases join_with_mem _ _ _ h with h1 | ⟨part, hp, hc⟩
    · simp at h1
    · obtain ⟨x, _, rfl⟩ := List.mem_map.mp hp
      exact (field_not_mem _ (format_fixed_field x)).1 hc
  · intro h
    rcases join_with_mem _ _ _ h with h1 | ⟨part, hp, hc⟩
    · simp at h1
    · obtain ⟨x, _, rfl⟩ := List.mem_map.mp hp
      exact (field_not_mem _ (format_fixed_field x)).2.2 hc

theorem data_line_count (n it : Int) (times : List Double) (avg : Double) :
    (data_line n it times avg).count ',' = 4 := by
  have h1 := List.count_eq_zero.mpr (field_not_mem _ (format_int_field n)).1
  have h2 := List.count_eq_zero.mpr (field_not_mem _ (format_int_field it)).1
  have h3 := List.count_eq_zero.mpr (write_times_not_mem times).1
  have h4 := List.count_eq_zero.mpr (field_not_mem _ (format_fixed_field avg)).1
  simp only [data_line, List.count_append, h1, h2, h3, h4]
  decide

theorem data_line_body (n it : Int) (times : List Double) (avg : Double) :
    '\n' ∉ "C++,".toList ++ format_int n ++ [','] ++ format_int it ++ [',']
      ++ write_times times ++ [','] ++ format_fixed avg := by
  have h1 := (field_not_mem _ (format_int_field n)).2.2
  have h2 := (field_not_mem _ (format_int_field it)).2.2
  have h3 := (write_times_not_mem times).2
  have h4 := (field_not_mem _ (format_fixed_field avg)).2.2
  simp only [List.mem_append, not_or]
  refine ⟨⟨⟨⟨⟨⟨⟨by decide, h1⟩, by decide⟩, h2⟩, by decide⟩, h3⟩, by decide⟩, h4⟩

/-! ## Tokens that do not convert, resumed scans, single brackets -/

theorem scan_row_reaches (content : List Char) (pos q : Nat) (row s : List Double)
    (h : value_loop_reaches content pos row q s) (fuel : Nat)
    (hf : content.length - pos ≤ fuel) :
    scan_row content fuel pos row = scan_row content fuel q s := by
  induction h with
  | start pos row => rfl
  | pass pos p q row r s hc hv _ ih =>
    have hlt := value_pass_next_lt content pos row p r hv
    rw [scan_row_unfold content fuel pos row hf, if_pos hc, hv]
    exact ih (by omega)

theorem scan_rows_reaches (content : List Char) (pos q : Nat) (m m2 : Matrix)
    (h : row_loop_reaches content pos m q m2) (fuel : Nat)
    (hf : content.length - pos ≤ fuel) :
    scan_rows content fuel pos m = scan_rows content fuel q m2 := by
  induction h with
  | start pos m => rfl
  | pass pos p q m m1 m2 hc hv _ ih =>
    have hlt := row_pass_next_lt content pos m p m1 hv
    rw [scan_rows_unfold content fuel pos m hf, if_pos hc, hv]
    exact ih (by omega)

theorem takeWhile_ne_nil (p : Char → Bool) (l : List Char) (h : l.takeWhile p ≠ []) :
    ∃ c rest, l = c :: rest ∧ p c = true := by
  cases l with
  | nil => simp at h
  | cons c rest =>
    by_cases hc : p c = true
    · exact ⟨c, rest, rfl, hc⟩
    · simp [List.takeWhile_cons, hc] at h

theorem token_start_ne_bracket (content : List Char) (pos1 : Nat)
    (h : (content.drop pos1).takeWhile is_numeric_char ≠ []) : content[pos1]? ≠ some ']' := by
  obtain ⟨c, rest, h1, h2⟩ := takeWhile_ne_nil _ _ h
  have h3 : content[pos1]? = some c := by
    have := congrArg List.head? h1
    simpa [List.head?_drop] using this
  rw [h3]
  intro he
  simp only [Option.some.injEq] at he
  exact is_numeric_ne_bracket c h2 he

/-- A pass that meets a token without a conversion fails. -/
theorem token_pass_no_conversion (content : List Char) (pos1 : Nat) (row : List Double)
    (e : StodError) (hne : (content.drop pos1).takeWhile is_numeric_char ≠ [])
    (hs : stod ((content.drop pos1).takeWhile is_numeric_char) = .error e) :
    token_pass content pos1 row = .fail .conversion := by
  unfold token_pass
  simp only
  rw [if_neg (token_start_ne_bracket content pos1 hne), if_neg (by simpa using hne), hs]

/-- A pass that meets a token with a conversion goes on right after the characters
converted. -/
theorem token_pass_conversion (content : List Char) (pos1 : Nat) (row : List Double)
    (value : Double) (end_pos : Nat)
    (hs : stod ((content.drop pos1).takeWhile is_numeric_char) = .ok (value, end_pos)) :
    token_pass content pos1 row = .next (pos1 + end_pos) (row ++ [value]) := by
  obtain ⟨hk1, hk2⟩ := stod_end_le _ value end_pos hs
  have hne : (content.drop pos1).takeWhile is_numeric_char ≠ [] := by
    intro he
    rw [he] at hk2
    simp at hk2
    omega
  unfold token_pass
  simp only
  rw [if_neg (token_start_ne_bracket content pos1 hne), if_neg (by simpa using hne), hs]
  simp only
  rw [if_neg (by omega)]

theorem load_matrix_no_conversion (content : List Char) (pos : Nat) (e : StodError)
    (hr : reaches_in_row content pos)
    (hne : (content.drop (skip_separators (content.drop pos) pos)).takeWhile is_numeric_char
      ≠ [])
    (hs : stod ((content.drop (skip_separators (content.drop pos) pos)).takeWhile
      is_numeric_char) = .error e) :
    load_matrix content = .error .conversion := by
  obtain ⟨p0, p, o, m, row, h0, hrow, hp, ho, hval, hc⟩ := hr
  have hv : value_pass content pos row = .fail .conversion :=
    token_pass_no_conversion content _ row e hne hs
  have hsr : scan_row content content.length (o + 1) [] = .error .conversion := by
    rw [scan_row_reaches content (o + 1) pos [] row hval _ (by omega),
      scan_row_unfold content _ pos row (by omega), if_pos hc, hv]
  unfold load_matrix
  rw [h0]
  simp only
  rw [scan_rows_reaches content (p0 + 1) p [] m hrow _ (by omega),
    scan_rows_unfold content _ p m (by omega), if_pos hp]
  unfold row_pass
  rw [ho]
  simp only
  rw [hsr]

theorem rows_from_no_open (b : List Char) (m : Matrix) (h : '[' ∉ b) :
    rows_from b m = .ok m := by
  induction b with
  | nil => exact rows_from_nil m
  | cons c b ih =>
    simp only [List.mem_cons, not_or] at h
    rw [rows_from_skip c b m (fun e => h.1 e.symm)]
    exact ih h.2

theorem load_matrix_single_bracket (a b : List Char) (ha : '[' ∉ a) (hb : '[' ∉ b) :
    load_matrix (a ++ '[' :: b) = .ok [] := by
  rw [load_matrix_append_left a _ ha, load_matrix_open]
  exact rows_from_no_open b [] hb

/-! ## Bounds on the scan position -/

theorem skip_separators_le_length (content : List Char) (pos : Nat) (h : pos ≤ content.length) :
    skip_separators (content.drop pos) pos ≤ content.length := by
  rw [skip_separators_shift]
  have := skip_separators_le (content.drop pos)
  rw [List.length_drop] at this
  omega

theorem value_pass_next_le (content : List Char) (pos : Nat) (row : List Double) (p : Nat)
    (r : List Double) (hp : pos ≤ content.length) (h : value_pass content pos row = .next p r) :
    p ≤ content.length + 1 := by
  have h1 := skip_separators_le_length content pos hp
  unfold value_pass token_pass at h
  simp only at h
  split at h
  · cases h
  · split at h
    · simp only [ValuePass.next.injEq] at h
      omega
    · split at h
      · cases h
      · rename_i v k hs
        split at h
        · cases h
        · simp only [ValuePass.next.injEq] at h
          have h2 := (stod_end_le _ v k hs).2
          have h3 : (List.takeWhile is_numeric_char
              (List.drop (skip_separators (List.drop pos content) pos) content)).length
              ≤ (List.drop (skip_separators (List.drop pos content) pos) content).length :=
            (List.takeWhile_sublist _).length_le
          rw [List.length_drop] at h3
          omega

theorem row_pass_next_le (content : List Char) (pos : Nat) (m : Matrix) (p : Nat) (m1 : Matrix)
    (h : row_pass content pos m = .next p m1) : p ≤ content.length := by
  unfold row_pass at h
  cases hf : find content '[' pos with
  | none => rw [hf] at h; cases h
  | some p0 =>
    rw [hf] at h
    simp only at h
    cases hs : scan_row content content.length (p0 + 1) [] with
    | error e => rw [hs] at h; cases h
    | ok pr =>
      obtain ⟨p1, row⟩ := pr
      rw [hs] at h
      simp only at h
      cases hb : find content ']' p1 with
      | none => rw [hb] at h; cases h
      | some eb =>
        rw [hb] at h
        simp only [RowPass.next.injEq] at h
        have h2 := (find_ge content ']' p1 eb hb).2
        omega

theorem load_matrix_results (content : List Char) :
    (∃ M, load_matrix content = .ok M) ∨ load_matrix content = .error .no_opening_bracket ∨
      load_matrix content = .error .conversion ∨
      load_matrix content = .error .unterminated_row := by
  cases h : load_matrix content with
  | ok M => exact Or.inl ⟨M, rfl⟩
  | error e =>
    right
    cases e with
    | no_opening_bracket => exact Or.inl rfl
    | conversion => exact Or.inr (Or.inl rfl)
    | unterminated_row => exact Or.inr (Or.inr rfl)
    | fuel_exhausted => exact absurd h (load_matrix_never_exhausts content)

/-! ## Element accesses of the multiplier -/

theorem at2_in_range (n : Nat) (M : Matrix) (hM : is_square n M) (i j : Nat) (hi : i < n)
    (hj : j < n) : (at2 M i j).isSome = true := by
  rw [at2_eq_getD n M (Nat.le_of_eq hM.1.symm) (fun r hr => Nat.le_of_eq (hM.2 r hr).symm)
    i j hi hj]
  rfl

theorem set2_in_range (n : Nat) (C : Matrix) (hC : is_square n C) (i j : Nat) (hi : i < n)
    (hj : j < n) (s : Double) : (set2 C i j s).isSome = true := by
  have hi' : i < C.length := by rw [hC.1]; exact hi
  have hr : (C[i]).length = n := hC.2 _ (List.getElem_mem _)
  simp [set2, List.getElem?_eq_getElem hi', hr, hj]

/-! ## The claims -/

set_option maxRecDepth 100000

set_option exponentiation.threshold 2048

/-- C1: for `n × n` operands `multiply_matrices` returns an `n × n` matrix whose entry
`(i, j)` is the sum of `A[i][k] * B[k][j]` accumulated from `+0.0` in increasing `k`,
and the product of `[[1,2],[3,4]]` and `[[5,6],[7,8]]` is exactly `[[19,22],[43,50]]`. -/
theorem multiply_matrices_entries (n : Nat) (A B : Matrix) (hA : is_square n A)
    (hB : is_square n B) :
    (∃ C, multiply_matrices A B = some C ∧ is_square n C ∧
      ∀ i j, i < n → j < n → at2 C i j = some (dot A B n i j)) ∧
    multiply_matrices example_a example_b = some example_c := by
  have h := multiply_matrices_eq n A B hA (Nat.le_of_eq hB.1.symm)
    (fun r hr => Nat.le_of_eq (hB.2 r hr).symm)
  refine ⟨⟨_, h, ⟨by simp, ?_⟩, ?_⟩, by decide⟩
  · intro row hrow
    simp only [List.mem_map] at hrow
    obtain ⟨i, _, rfl⟩ := hrow
    simp
  · intro i j hi hj
    simp [at2, hi, hj]

/-- Witness of C1 on the operands of the example. -/
theorem multiply_matrices_entries_witness :
    is_square 2 example_a ∧ is_square 2 example_b ∧
    ((∃ C, multiply_matrices example_a example_b = some C ∧ is_square 2 C ∧
      ∀ i j, i < 2 → j < 2 → at2 C i j = some (dot example_a example_b 2 i j)) ∧
    multiply_matrices example_a example_b = some example_c) :=
  ⟨by decide, by decide, multiply_matrices_entries 2 example_a example_b (by decide) (by decide)⟩

/-- C2 as stated fails: with an infinite entry the product with the identity holds a
NaN (`inf * 0.0`) where the matrix holds `0.0`, so it is not the matrix itself, and
the two entries do not compare equal. -/
theorem multiply_identity_infinite :
    is_square 2 [[Double.inf false, Double.zero], [Double.zero, Double.zero]] ∧
    multiply_matrices [[Double.inf false, Double.zero], [Double.zero, Double.zero]] (identity 2)
      = some [[Double.inf false, Double.nan], [Double.zero, Double.zero]] ∧
    multiply_matrices [[Double.inf false, Double.zero], [Double.zero, Double.zero]] (identity 2)
      ≠ some [[Double.inf false, Double.zero], [Double.zero, Double.zero]] ∧
    Double.eq Double.nan Double.zero = false := by
  decide

/-- C2, amended: for an `n × n` matrix `A` whose entries are all finite,
`multiply_matrices(A, I_n)` returns `A` with each `-0.0` entry replaced by `+0.0`, so
every entry of the result compares equal (`==`) to the entry of `A`. -/
theorem multiply_identity_finite (n : Nat) (A : Matrix) (hA : is_square n A)
    (hfin : all_finite A) :
    multiply_matrices A (identity n) = some (A.map fun row => row.map Double.clear_zero_sign) ∧
    ∀ row ∈ A, ∀ a ∈ row, Double.eq a.clear_zero_sign a = true :=
  ⟨multiply_identity_eq n A hA hfin,
    fun row hrow a ha => Double.eq_clear_zero_sign a (hfin row hrow a ha).2⟩

/-- Witness of C2 amended, on a matrix with a negative zero. -/
theorem multiply_identity_finite_witness :
    is_square 2 [[Double.of_nat 1, Double.neg_zero], [Double.of_nat 2, Double.of_nat 3]] ∧
    all_finite [[Double.of_nat 1, Double.neg_zero], [Double.of_nat 2, Double.of_nat 3]] ∧
    multiply_matrices [[Double.of_nat 1, Double.neg_zero], [Double.of_nat 2, Double.of_nat 3]]
      (identity 2)
      = some [[Double.of_nat 1, Double.zero], [Double.of_nat 2, Double.of_nat 3]] :=
  ⟨by decide, by decide,
    (multiply_identity_finite 2
      [[Double.of_nat 1, Double.neg_zero], [Double.of_nat 2, Double.of_nat 3]]
      (by decide) (by decide)).1⟩

/-- C3 as stated fails: on a `1 × 1` and a `2 × 2` operand `multiply_matrices` reports
no error and returns the product computed from the top-left entry of the second. -/
theorem multiply_matrices_no_dimension_check :
    is_square 1 [[Double.of_nat 2]] ∧
    is_square 2 [[Double.of_nat 3, Double.of_nat 4], [Double.of_nat 5, Double.of_nat 6]] ∧
    multiply_matrices [[Double.of_nat 2]]
      [[Double.of_nat 3, Double.of_nat 4], [Double.of_nat 5, Double.of_nat 6]]
      = some [[Double.of_nat 6]] := by
  decide

/-- C3, amended: `multiply_matrices` checks no dimension; for an `n × n` matrix `A` and
an `m × m` matrix `B` with `n < m` it returns the `n × n` matrix of the sums of
`A[i][k] * B[k][j]` over `k < n`, which is the product of `A` and the top-left
`n × n` block of `B`. -/
theorem multiply_matrices_top_left (n m : Nat) (A B : Matrix) (hA : is_square n A)
    (hB : is_square m B) (hnm : n < m) :
    multiply_matrices A B
        = some ((List.range n).map fun i => (List.range n).map fun j => dot A B n i j) ∧
      multiply_matrices A (top_left n B) = multiply_matrices A B :=
  multiply_top_left n m A B hA hB hnm

/-- Witness of C3 amended, on a `1 × 1` and a `2 × 2` operand. -/
theorem multiply_matrices_top_left_witness :
    is_square 1 [[Double.of_nat 2]] ∧
    is_square 2 [[Double.of_nat 3, Double.of_nat 4], [Double.of_nat 5, Double.of_nat 6]] ∧
    1 < 2 ∧
    multiply_matrices [[Double.of_nat 2]]
        (top_left 1 [[Double.of_nat 3, Double.of_nat 4], [Double.of_nat 5, Double.of_nat 6]])
      = multiply_matrices [[Double.of_nat 2]]
        [[Double.of_nat 3, Double.of_nat 4], [Double.of_nat 5, Double.of_nat 6]] :=
  ⟨by decide, by decide, by decide,
    (multiply_matrices_top_left 1 2 [[Double.of_nat 2]]
      [[Double.of_nat 3, Double.of_nat 4], [Double.of_nat 5, Double.of_nat 6]]
      (by decide) (by decide) (by decide)).2⟩

/-- C6: on a text without any `'['`, the empty text included, the scanner fails with
the error of the missing opening bracket and returns no matrix. -/
theorem load_matrix_no_opening_bracket (content : List Char) (h : '[' ∉ content) :
    load_matrix content = .error .no_opening_bracket :=
  load_matrix_no_bracket content h

/-- Witness of C6 on the text `1, 2]` and on the empty text. -/
theorem load_matrix_no_opening_bracket_witness :
    '[' ∉ "1, 2]".toList ∧ load_matrix "1, 2]".toList = .error .no_opening_bracket ∧
    load_matrix [] = .error .no_opening_bracket :=
  ⟨by decide, load_matrix_no_opening_bracket "1, 2]".toList (by decide),
    load_matrix_no_opening_bracket [] (by decide)⟩

/-- C7: when a `'['` that comes after another `'['` has no `']'` anywhere after it,
the scanner fails, on a conversion or on the missing closing bracket, and returns no
matrix, whatever rows were completed before. -/
theorem load_matrix_unterminated_row (a b c : List Char) (hc : ']' ∉ c) :
    load_matrix (a ++ '[' :: (b ++ '[' :: c)) = .error .conversion ∨
      load_matrix (a ++ '[' :: (b ++ '[' :: c)) = .error .unterminated_row :=
  load_matrix_unterminated a b c hc

/-- Witness of C7 on the text `[[1, 2],[3, 4`, whose first row is complete. -/
theorem load_matrix_unterminated_row_witness :
    [] ++ '[' :: ("[1, 2],".toList ++ '[' :: "3, 4".toList) = "[[1, 2],[3, 4".toList ∧
    ']' ∉ "3, 4".toList ∧
    (load_matrix ([] ++ '[' :: ("[1, 2],".toList ++ '[' :: "3, 4".toList)) = .error .conversion ∨
      load_matrix ([] ++ '[' :: ("[1, 2],".toList ++ '[' :: "3, 4".toList))
        = .error .unterminated_row) :=
  ⟨by decide, by decide, load_matrix_unterminated_row [] "[1, 2],".toList "3, 4".toList (by decide)⟩

/-- C8: inside a row a character that is no separator, not `']'` and not in the
numeric class is skipped: replacing it by a space leaves the result of the scanner
unchanged, and `[[1, 2],[3, x, 4]]` is scanned into `[[1, 2],[3, 4]]`. -/
theorem load_matrix_skip_and_continue (pre post : List Char) (c : Char)
    (hrow : scan_state pre = .in_row) (h1 : is_separator c = false) (h2 : c ≠ ']')
    (h3 : is_numeric_char c = false) :
    load_matrix (pre ++ c :: post) = load_matrix (pre ++ ' ' :: post) ∧
    load_matrix "[[1, 2],[3, x, 4]]".toList
      = .ok [[Double.of_nat 1, Double.of_nat 2], [Double.of_nat 3, Double.of_nat 4]] :=
  ⟨load_matrix_replace pre hrow c post h1 h2 h3, by decide⟩

/-- Witness of C8 on the character `x` of `[[1, 2],[3, x, 4]]`. -/
theorem load_matrix_skip_and_continue_witness :
    "[[1, 2],[3, ".toList ++ 'x' :: ", 4]]".toList = "[[1, 2],[3, x, 4]]".toList ∧
    scan_state "[[1, 2],[3, ".toList = .in_row ∧
    load_matrix ("[[1, 2],[3, ".toList ++ 'x' :: ", 4]]".toList)
      = load_matrix ("[[1, 2],[3, ".toList ++ ' ' :: ", 4]]".toList) :=
  ⟨by decide, by decide,
    (load_matrix_skip_and_continue "[[1, 2],[3, ".toList ", 4]]".toList 'x'
      (by decide) (by decide) (by decide) (by decide)).1⟩

/-- C9: the scanner returns the scanned rows that have a value, in input order, and
drops the others without error; so every row of a returned matrix is non-empty, and
`[[],[1]]` is scanned into `[[1]]`. -/
theorem load_matrix_drops_empty_rows (content : List Char) :
    (load_matrix content =
      match all_rows content with
      | .error e => .error e
      | .ok rows => .ok (rows.filter fun row => decide (row.length > 0))) ∧
    (∀ M, load_matrix content = .ok M → ∀ row ∈ M, row ≠ []) ∧
    load_matrix "[[],[1]]".toList = .ok [[Double.of_nat 1]] := by
  refine ⟨load_matrix_all_rows content, ?_, by decide⟩
  intro M hM
  rw [load_matrix_dropWhile] at hM
  cases hd : content.dropWhile (fun c => c != '[') with
  | nil => rw [hd] at hM; cases hM
  | cons c rest =>
    rw [hd] at hM
    exact rows_from_nonempty rest.length rest (Nat.le_refl _) [] M (by simp) hM

/-- Witness of C9 on the text `[[],[1]]`, whose first row has no value. -/
theorem load_matrix_drops_empty_rows_witness :
    all_rows "[[],[1]]".toList = .ok [[], [Double.of_nat 1]] ∧
    load_matrix "[[],[1]]".toList = .ok [[Double.of_nat 1]] ∧
    ∀ row ∈ [[Double.of_nat 1]], row ≠ [] :=
  ⟨by decide, by decide,
    (load_matrix_drops_empty_rows "[[],[1]]".toList).2.1 [[Double.of_nat 1]] (by decide)⟩

/-- C10: what stands before the first `'['` is ignored: with a prefix `p` that holds
no `'['` the scanner gives on `p ++ t` the result it gives on `t`, failure or matrix. -/
theorem load_matrix_ignores_leading_text (p t : List Char) (h : '[' ∉ p) :
    load_matrix (p ++ t) = load_matrix t :=
  load_matrix_append_left p t h

/-- Witness of C10 on the prefix `data: ` before `[[1]]`. -/
theorem load_matrix_ignores_leading_text_witness :
    '[' ∉ "data: ".toList ∧
    load_matrix ("data: ".toList ++ "[[1]]".toList) = load_matrix "[[1]]".toList :=
  ⟨by decide, load_matrix_ignores_leading_text "data: ".toList "[[1]]".toList (by decide)⟩

/-- C11: when the scan stands inside a row at the head of a pass whose token, the run
of characters of the numeric class after the separators, is not empty and has no
conversion, the scanner fails on the conversion and returns no matrix; so it does on
`[[-]]`, `[[e5]]` and `[[.]]`. -/
theorem load_matrix_token_without_number (content : List Char) (pos : Nat) (e : StodError)
    (hr : reaches_in_row content pos)
    (hne : (content.drop (skip_separators (content.drop pos) pos)).takeWhile is_numeric_char
      ≠ [])
    (hs : stod ((content.drop (skip_separators (content.drop pos) pos)).takeWhile
      is_numeric_char) = .error e) :
    load_matrix content = .error .conversion ∧
    load_matrix "[[-]]".toList = .error .conversion ∧
    load_matrix "[[e5]]".toList = .error .conversion ∧
    load_matrix "[[.]]".toList = .error .conversion :=
  ⟨load_matrix_no_conversion content pos e hr hne hs, by decide, by decide, by decide⟩

/-- Witness of C11 on `[[1, -]]`, where the scan reaches the token `-` after the value
`1` and a separator. -/
theorem load_matrix_token_without_number_witness :
    reaches_in_row "[[1, -]]".toList 3 ∧
    stod ("[[1, -]]".toList.drop 5 |>.takeWhile is_numeric_char) = .error .invalid_argument ∧
    load_matrix "[[1, -]]".toList = .error .conversion :=
  have hr : reaches_in_row "[[1, -]]".toList 3 :=
    ⟨0, 1, 1, [], [Double.of_nat 1], by decide, .start 1 [], by decide, by decide,
      .pass 2 3 3 [] [Double.of_nat 1] [Double.of_nat 1] (by decide) (by decide)
        (.start 3 [Double.of_nat 1]), by decide⟩
  ⟨hr, by decide,
    (load_matrix_token_without_number "[[1, -]]".toList 3 .invalid_argument hr
      (by decide) (by decide)).1⟩

/-- C12 as stated fails for operands on which the multiplication is not defined: with
a `1 × 1` first operand and an empty second one the first call reads `matrix_b[0]`
outside the vector, and no list of durations is returned. -/
theorem measure_undefined_operands :
    multiply_matrices [[Double.of_nat 1]] [] = none ∧
    measure_multiplication [[Double.of_nat 1]] [] 1 example_clock 0 = none := by
  decide

/-- C12, amended: for `iterations ≥ 1` and operands on which `multiply_matrices` is
defined, `measure_multiplication` returns exactly `iterations` durations, one per
call, in call order: the `i`-th is the time between the two readings of the clock
around the `i`-th call. -/
theorem measure_multiplication_durations (A B : Matrix) (iterations : Int)
    (clock : Nat → Int) (t : Nat) (hk : 1 ≤ iterations)
    (hdef : (multiply_matrices A B).isSome = true) :
    ∃ avg times, measure_multiplication A B iterations clock t = some (avg, times) ∧
      (times.length : Int) = iterations ∧
      ∀ i, i < times.length →
        times[i]? = some (elapsed_seconds (clock (t + 2 * i + 1) - clock (t + 2 * i))) := by
  obtain ⟨C, hC⟩ := Option.isSome_iff_exists.mp hdef
  refine ⟨_, _, measure_defined A B C hC iterations clock t, ?_, ?_⟩
  · simp only [List.length_map, List.length_range]
    omega
  · intro i hi
    simp only [List.length_map, List.length_range] at hi
    simp [hi]

/-- Witness of C12 amended on three calls with `1 × 1` operands. -/
theorem measure_multiplication_durations_witness :
    (1 : Int) ≤ 3 ∧
    (multiply_matrices [[Double.of_nat 1]] [[Double.of_nat 1]]).isSome = true ∧
    ∃ avg times,
      measure_multiplication [[Double.of_nat 1]] [[Double.of_nat 1]] 3 example_clock 0
        = some (avg, times) ∧
      (times.length : Int) = 3 ∧
      ∀ i, i < times.length →
        times[i]? = some (elapsed_seconds
          (example_clock (0 + 2 * i + 1) - example_clock (0 + 2 * i))) :=
  ⟨by decide, by decide,
    measure_multiplication_durations [[Double.of_nat 1]] [[Double.of_nat 1]] 3 example_clock 0
      (by decide) (by decide)⟩

/-- C13 as stated fails: with 0 iterations `measure_multiplication` reports no error
and returns the empty list of durations with the average `0.0 / 0`, a NaN. -/
theorem measure_zero_iterations :
    measure_multiplication example_a example_b 0 example_clock 0 = some (Double.nan, []) := by
  decide

/-- C13, amended: `measure_multiplication` checks no iteration count; for
`iterations ≤ 0` it makes no call, reports no error and returns the empty list of
durations with a NaN as average. -/
theorem measure_multiplication_no_pass (A B : Matrix) (iterations : Int) (clock : Nat → Int)
    (t : Nat) (hk : iterations ≤ 0) :
    measure_multiplication A B iterations clock t = some (Double.nan, []) :=
  measure_no_pass A B iterations hk clock t

/-- Witness of C13 amended on a negative iteration count. -/
theorem measure_multiplication_no_pass_witness :
    (-2 : Int) ≤ 0 ∧
    measure_multiplication example_a example_b (-2) example_clock 0 = some (Double.nan, []) :=
  ⟨by decide, measure_multiplication_no_pass example_a example_b (-2) example_clock 0 (by decide)⟩

/-- C14 as stated fails: for three calls of 1000000, 1000000 and 1000001 nanoseconds
the average times 3 is not the sum of the durations, by one unit in the last place. -/
theorem measure_average_rounding :
    measure_multiplication [[Double.of_nat 1]] [[Double.of_nat 1]] 3 example_clock 0
      = some (Double.finite false 0x10624e2e91e97d (-62),
          [Double.finite false 0x10624dd2f1a9fc (-62), Double.finite false 0x10624dd2f1a9fc (-62),
            Double.finite false 0x10624ee5d2687e (-62)]) ∧
    accumulate [Double.finite false 0x10624dd2f1a9fc (-62),
        Double.finite false 0x10624dd2f1a9fc (-62), Double.finite false 0x10624ee5d2687e (-62)]
      = Double.finite false 0x18937545dade3b (-61) ∧
    Double.finite false 0x10624e2e91e97d (-62) * Double.of_int 3
      = Double.finite false 0x18937545dade3c (-61) := by
  decide

/-- C14, amended: for `iterations ≥ 1` the average returned is the sum of the returned
durations, accumulated from `0.0` in list order, divided by the iteration count, in
one rounded division; every duration of the list enters the sum. -/
theorem measure_multiplication_average (A B : Matrix) (iterations : Int) (clock : Nat → Int)
    (t : Nat) (avg : Double) (times : List Double) (hk : 1 ≤ iterations)
    (h : measure_multiplication A B iterations clock t = some (avg, times)) :
    avg = accumulate times / Double.of_int iterations ∧ (times.length : Int) = iterations := by
  obtain ⟨h1, h2⟩ := measure_average A B iterations clock t avg times h
  have h3 : (times.length : Int) = iterations := by omega
  exact ⟨by rw [← h3]; exact h1, h3⟩

/-- Witness of C14 amended on the three calls of the counterexample. -/
theorem measure_multiplication_average_witness :
    (1 : Int) ≤ 3 ∧
    Double.finite false 0x10624e2e91e97d (-62)
      = accumulate [Double.finite false 0x10624dd2f1a9fc (-62),
          Double.finite false 0x10624dd2f1a9fc (-62), Double.finite false 0x10624ee5d2687e (-62)]
        / Double.of_int 3 :=
  ⟨by decide,
    (measure_multiplication_average [[Double.of_nat 1]] [[Double.of_nat 1]] 3 example_clock 0
      (Double.finite false 0x10624e2e91e97d (-62))
      [Double.finite false 0x10624dd2f1a9fc (-62), Double.finite false 0x10624dd2f1a9fc (-62),
        Double.finite false 0x10624ee5d2687e (-62)] (by decide) (by decide)).1⟩

/-- C15: the code departs from the claim on a results file that exists and cannot be
opened for reading.  There `file_exists` answers `false`, and the call writes the
header line again between the previous content and the data line; on the same file
with `file_exists` answering `true` it adds the data line alone.  The header is
written exactly when `file_exists` answers `false`, whatever the state of the file. -/
theorem registrar_resultados_unreadable_file :
    registrar_resultados true false true
        (some ("language,matrix_size,iterations,individual_times,average_time\n"
          ++ "C++,2,1,0.500000,0.500000\n").toList)
        2 1 [Double.finite false (2 ^ 52) (-53)] (Double.finite false (2 ^ 52) (-53))
      = some ("language,matrix_size,iterations,individual_times,average_time\n"
          ++ "C++,2,1,0.500000,0.500000\n"
          ++ "language,matrix_size,iterations,individual_times,average_time\n"
          ++ "C++,2,1,0.500000,0.500000\n").toList ∧
    registrar_resultados true true true
        (some ("language,matrix_size,iterations,individual_times,average_time\n"
          ++ "C++,2,1,0.500000,0.500000\n").toList)
        2 1 [Double.finite false (2 ^ 52) (-53)] (Double.finite false (2 ^ 52) (-53))
      = some ("language,matrix_size,iterations,individual_times,average_time\n"
          ++ "C++,2,1,0.500000,0.500000\n"
          ++ "C++,2,1,0.500000,0.500000\n").toList ∧
    (∀ content n it times avg,
      registrar_resultados true false true (some content) n it times avg
        = some (content ++ header_line ++ data_line n it times avg)) := by
  refine ⟨by decide, by decide, ?_⟩
  intro content n it times avg
  simp [registrar_resultados]

/-- C16: the data line is `C++,<n>,<iterations>,<t1> <t2> ... <tk>,<average>` and a line
feed: five fields in that order with four commas and no comma inside a field, the
durations in list order with one space between two of them and none before the first
or after the last. -/
theorem data_line_fields (n it : Int) (times : List Double) (avg : Double)
    (hk : times ≠ []) :
    data_line n it times avg
      = "C++".toList ++ [','] ++ format_int n ++ [','] ++ format_int it ++ [',']
        ++ join_with [' '] (times.map format_fixed) ++ [','] ++ format_fixed avg ++ ['\n'] ∧
    (data_line n it times avg).count ',' = 4 ∧
    (',' ∉ format_int n ∧ ',' ∉ format_int it ∧ ',' ∉ write_times times ∧
      ',' ∉ format_fixed avg) ∧
    '\n' ∉ "C++,".toList ++ format_int n ++ [','] ++ format_int it ++ [',']
      ++ write_times times ++ [','] ++ format_fixed avg ∧
    (∀ x ∈ times, format_fixed x ≠ [] ∧ ' ' ∉ format_fixed x) ∧
    write_times times ≠ [] ∧ (write_times times).head? ≠ some ' ' ∧
    (write_times times).getLast? ≠ some ' ' := by
  have hsp : ∀ x : Double, ' ' ∉ format_fixed x :=
    fun x => (field_not_mem _ (format_fixed_field x)).2.1
  refine ⟨?_, data_line_count n it times avg,
    ⟨(field_not_mem _ (format_int_field n)).1, (field_not_mem _ (format_int_field it)).1,
      (write_times_not_mem times).1, (field_not_mem _ (format_fixed_field avg)).1⟩,
    data_line_body n it times avg, fun x _ => ⟨format_fixed_ne_nil x, hsp x⟩, ?_⟩
  · simp [data_line, write_times_eq]
  · rw [write_times_eq]
    cases times with
    | nil => exact absurd rfl hk
    | cons x rest =>
      have hhead := join_with_head [' '] (format_fixed x) (rest.map format_fixed)
        (format_fixed_ne_nil x)
      obtain ⟨part, hm, hl⟩ := join_with_getLast [' '] ((x :: rest).map format_fixed)
        (by simp) (by
          intro part hp
          obtain ⟨y, _, rfl⟩ := List.mem_map.mp hp
          exact format_fixed_ne_nil y)
      obtain ⟨y, _, rfl⟩ := List.mem_map.mp hm
      simp only [List.map_cons] at hhead hl ⊢
      refine ⟨?_, ?_, ?_⟩
      · intro he
        rw [he] at hhead
        have := format_fixed_ne_nil x
        cases hx : format_fixed x with
        | nil => exact this hx
        | cons c l => rw [hx] at hhead; simp at hhead
      · rw [hhead]
        intro he
        exact hsp x (List.mem_of_mem_head? he)
      · rw [hl]
        intro he
        exact hsp y (List.mem_of_mem_getLast? he)

/-- Witness of C16 on three durations. -/
theorem data_line_fields_witness :
    [elapsed_seconds 1000000, elapsed_seconds 1000000, elapsed_seconds 1000001] ≠ [] ∧
    data_line 500 3 [elapsed_seconds 1000000, elapsed_seconds 1000000, elapsed_seconds 1000001]
        (Double.finite false 0x10624e2e91e97d (-62))
      = "C++,500,3,0.001000 0.001000 0.001000,0.001000\n".toList ∧
    (data_line 500 3 [elapsed_seconds 1000000, elapsed_seconds 1000000, elapsed_seconds 1000001]
        (Double.finite false 0x10624e2e91e97d (-62))).count ',' = 4 :=
  ⟨by decide, by decide,
    (data_line_fields 500 3
      [elapsed_seconds 1000000, elapsed_seconds 1000000, elapsed_seconds 1000001]
      (Double.finite false 0x10624e2e91e97d (-62)) (by decide)).2.1⟩

/-- C17: the scanner terminates on every text: a pass of the value loop or of the row
loop that does not stop the scan moves the position forward, the position stays within
the length of the text plus one, the loops give the same result with any larger bound
on their passes, and `load_matrix` always ends with a matrix or with one of its three
errors. -/
theorem load_matrix_terminates :
    (∀ content pos row p r, pos < content.length → value_pass content pos row = .next p r →
      pos < p ∧ p ≤ content.length + 1) ∧
    (∀ content pos m p m1, pos < content.length → row_pass content pos m = .next p m1 →
      pos < p ∧ p ≤ content.length) ∧
    (∀ content fuel pos row, content.length - pos ≤ fuel →
      scan_row content fuel pos row = scan_row content (content.length - pos) pos row) ∧
    (∀ content fuel pos m, content.length - pos ≤ fuel →
      scan_rows content fuel pos m = scan_rows content (content.length - pos) pos m) ∧
    (∀ content, (∃ M, load_matrix content = .ok M) ∨
      load_matrix content = .error .no_opening_bracket ∨
      load_matrix content = .error .conversion ∨
      load_matrix content = .error .unterminated_row) :=
  ⟨fun content pos row p r hp h =>
      ⟨value_pass_next_lt content pos row p r h,
        value_pass_next_le content pos row p r (Nat.le_of_lt hp) h⟩,
    fun content pos m p m1 _ h =>
      ⟨row_pass_next_lt content pos m p m1 h, row_pass_next_le content pos m p m1 h⟩,
    fun content fuel pos row hf => scan_row_fuel content fuel _ pos row hf (Nat.le_refl _),
    fun content fuel pos m hf => scan_rows_fuel content fuel _ pos m hf (Nat.le_refl _),
    load_matrix_results⟩

/-- Witness of C17 on passes of the two loops in `[[1, 2]]`. -/
theorem load_matrix_terminates_witness :
    value_pass "[[1, 2]]".toList 3 [Double.of_nat 1]
      = .next 6 [Double.of_nat 1, Double.of_nat 2] ∧
    (3 < 6 ∧ 6 ≤ "[[1, 2]]".toList.length + 1) ∧
    row_pass "[[1, 2]]".toList 1 [] = .next 7 [[Double.of_nat 1, Double.of_nat 2]] ∧
    (1 < 7 ∧ 7 ≤ "[[1, 2]]".toList.length) :=
  ⟨by decide,
    load_matrix_terminates.1 "[[1, 2]]".toList 3 [Double.of_nat 1] 6
      [Double.of_nat 1, Double.of_nat 2] (by decide) (by decide),
    by decide,
    load_matrix_terminates.2.1 "[[1, 2]]".toList 1 [] 7 [[Double.of_nat 1, Double.of_nat 2]]
      (by decide) (by decide)⟩

/-- C18: for operands with `n` rows of `n` entries every access `A[i][k]`, `B[k][j]`
and `C[i][j]` with `i`, `j`, `k` below `n` is inside its vector, and
`multiply_matrices` never takes the branch of an access outside a vector. -/
theorem multiply_matrices_in_bounds (n : Nat) (A B : Matrix) (hA : is_square n A)
    (hB : is_square n B) :
    (∀ i j k, i < n → j < n → k < n →
      (at2 A i k).isSome = true ∧ (at2 B k j).isSome = true) ∧
    (∀ C i j s, is_square n C → i < n → j < n → (set2 C i j s).isSome = true) ∧
    (multiply_matrices A B).isSome = true := by
  refine ⟨fun i j k hi hj hk => ⟨at2_in_range n A hA i k hi hk, at2_in_range n B hB k j hk hj⟩,
    fun C i j s hC hi hj => set2_in_range n C hC i j hi hj s, ?_⟩
  rw [multiply_matrices_eq n A B hA (Nat.le_of_eq hB.1.symm)
    (fun r hr => Nat.le_of_eq (hB.2 r hr).symm)]
  rfl

/-- Witness of C18 on the operands of the example. -/
theorem multiply_matrices_in_bounds_witness :
    is_square 2 example_a ∧ is_square 2 example_b ∧
    (multiply_matrices example_a example_b).isSome = true :=
  ⟨by decide, by decide,
    (multiply_matrices_in_bounds 2 example_a example_b (by decide) (by decide)).2.2⟩

/-- C19: after a conversion the scan goes on at the first character that was not
converted, not at the end of the token: `1-2` converts to `1` with one character
consumed, `[[1-2]]` is scanned into the row `[1, -2]` and `[[1.5.5]]` into the row
`[1.5, 0.5]`. -/
theorem scan_resumes_after_conversion (content : List Char) (pos1 : Nat) (row : List Double)
    (value : Double) (end_pos : Nat)
    (hs : stod ((content.drop pos1).takeWhile is_numeric_char) = .ok (value, end_pos)) :
    token_pass content pos1 row = .next (pos1 + end_pos) (row ++ [value]) ∧
    stod "1-2".toList = .ok (Double.of_nat 1, 1) ∧
    load_matrix "[[1-2]]".toList
      = .ok [[Double.of_nat 1, Double.finite true (2 ^ 52) (-51)]] ∧
    load_matrix "[[1.5.5]]".toList
      = .ok [[Double.finite false (3 * 2 ^ 51) (-52), Double.finite false (2 ^ 52) (-53)]] :=
  ⟨token_pass_conversion content pos1 row value end_pos hs, by decide, by decide, by decide⟩

/-- Witness of C19 on the token `1-2` of `[[1-2]]`: the scan goes on at the `-`. -/
theorem scan_resumes_after_conversion_witness :
    ("[[1-2]]".toList.drop 2).takeWhile is_numeric_char = "1-2".toList ∧
    token_pass "[[1-2]]".toList 2 [] = .next (2 + 1) ([] ++ [Double.of_nat 1]) :=
  ⟨by decide,
    (scan_resumes_after_conversion "[[1-2]]".toList 2 [] (Double.of_nat 1) 1 (by decide)).1⟩

/-- C20: on a text with exactly one `'['` the scanner succeeds with the empty matrix,
whatever follows the bracket and even without any `']'`: so on `[1, 2, 3]` and on
`[1, 2`. -/
theorem load_matrix_one_bracket (a b : List Char) (ha : '[' ∉ a) (hb : '[' ∉ b) :
    load_matrix (a ++ '[' :: b) = .ok [] ∧
    load_matrix "[1, 2, 3]".toList = .ok [] ∧
    load_matrix "[1, 2".toList = .ok [] :=
  ⟨load_matrix_single_bracket a b ha hb, by decide, by decide⟩

/-- Witness of C20 on the text `x = [1, 2`. -/
theorem load_matrix_one_bracket_witness :
    '[' ∉ "x = ".toList ∧ '[' ∉ "1, 2".toList ∧
    load_matrix ("x = ".toList ++ '[' :: "1, 2".toList) = .ok [] :=
  ⟨by decide, by decide,
    (load_matrix_one_bracket "x = ".toList "1, 2".toList (by decide) (by decide)).1⟩


end BenchmarkMatrices
